import Mathlib

/-!
# Verification of the simple-file-poller core (`src/sfp/_poller.py`)

This file gives a shallow embedding of the poller's core operations —
`Poller.list_files`, `Poller.process_files`, `Poller._simple_poll`,
`Poller.stop` / `Poller.is_busy` — and proves the specified properties
about them.

Modelling conventions:
* A filesystem `World` is a list of regular-file paths plus a list of
  directory paths (full path strings); `os.listdir` enumerates the entries
  whose parent directory matches, in list order (the real enumeration order
  is implementation-defined, so list order is as good as any).
* `os.remove` / `os.rename` are fallible: they raise when the source is
  absent, and additionally on any path in an ambient `fail` set (modelling
  permission / IO errors).  `os.rename` overwrites an existing target.
* The validator callback (`check_file`) returns a boolean verdict plus a
  flag recording whether it invoked `Poller.stop()` (the documented way a
  callback cancels polling).  The processor callback (`process_file`)
  returns `none` to model an exception, or the list of output paths it
  produced (which thereby come into existence at their declared paths).
* Python's `dict` is insertion-ordered, so the blacklist is an association
  list; updates keep the entry position, deletions drop every matching key.
* `KeyboardInterrupt` handling and log formatting are not modelled; log
  *events* that the properties refer to (the per-file error message of
  `process_files`) are modelled as explicit events.
-/

namespace SFP

/-! ## Path helpers (`os.path` fragments used by the poller) -/

/-- `os.path.basename`: the part of the path after the last slash. -/
def basenameAux : List Char → List Char → List Char
  | [], acc => acc.reverse
  | c :: rest, acc => if c = '/' then basenameAux rest [] else basenameAux rest (c :: acc)

def basename (p : String) : String := ⟨basenameAux p.toList []⟩

/-- The parent directory of a path: everything before the last slash
(`""` when there is no slash, `"/"` for a top-level entry). -/
def parentDir (p : String) : String :=
  let rev := p.toList.reverse
  match rev.dropWhile (fun c => c ≠ '/') with
  | [] => ""
  | _ :: rest => if rest = [] then "/" else ⟨rest.reverse⟩

/-- Does the string start with a slash? -/
def headSlash (s : String) : Bool :=
  match s.toList with
  | '/' :: _ => true
  | _ => false

/-- Does the string end with a slash? -/
def lastSlash (s : String) : Bool :=
  match s.toList.reverse with
  | '/' :: _ => true
  | _ => false

/-- `os.path.join` for two components (POSIX): an absolute second component
replaces the first. -/
def joinPath (a b : String) : String :=
  if headSlash b then b
  else if a = "" then b
  else if lastSlash a then a ++ b
  else a ++ "/" ++ b

/-- Split the basename's characters into (root, extension-with-dot),
following `os.path.splitext`: leading dots of the basename belong to the
root, the split happens at the last remaining dot. -/
def splitExtBase (b : List Char) : List Char × List Char :=
  let lead := b.takeWhile (fun c => c = '.')
  let rest := b.dropWhile (fun c => c = '.')
  let after := rest.reverse.takeWhile (fun c => c ≠ '.')
  match rest.reverse.dropWhile (fun c => c ≠ '.') with
  | [] => (lead ++ rest, [])
  | _ :: before => (lead ++ before.reverse, '.' :: after.reverse)

/-- `os.path.splitext`: `(root, ext)` with `root ++ ext = p`. -/
def splitext (p : String) : String × String :=
  let rev := p.toList.reverse
  let b := (rev.takeWhile (fun c => c ≠ '/')).reverse
  let d := (rev.dropWhile (fun c => c ≠ '/')).reverse
  let r := splitExtBase b
  (⟨d ++ r.1⟩, ⟨r.2⟩)

example : basename "/in/a.txt" = "a.txt" := by decide
example : parentDir "/in/a.txt" = "/in" := by decide
example : joinPath "/in" "a.txt" = "/in/a.txt" := by decide
example : joinPath "/in" "/in/a.meta" = "/in/a.meta" := by decide
example : splitext "/in/a.txt" = ("/in/a", ".txt") := by decide
example : splitext "a.tar.gz" = ("a.tar", ".gz") := by decide
example : splitext ".bashrc" = (".bashrc", "") := by decide

/-! ## Filesystem model -/

/-- The filesystem: existing regular files and directories (full paths). -/
structure World where
  files : List String
  dirs : List String
  deriving Repr, DecidableEq

/-- `os.listdir d`: names (not paths) of the entries of directory `d`,
in enumeration order. -/
def listdir (d : String) (w : World) : List String :=
  ((w.files ++ w.dirs).filter (fun p => decide (parentDir p = d))).map basename

/-- `os.remove`: fails (`none`) when the file is absent or the ambient
failure set hits the path. -/
def opRemove (fail : List String) (w : World) (p : String) : Option World :=
  if p ∈ fail ∨ p ∉ w.files then none
  else some { w with files := w.files.filter (fun q => decide (q ≠ p)) }

/-- `os.rename`: fails when the source is absent or in the failure set;
on success the source disappears and the destination is (over)written. -/
def opRename (fail : List String) (w : World) (src dst : String) : Option World :=
  if src ∈ fail ∨ src ∉ w.files then none
  else some { w with
    files := (w.files.filter (fun q => decide (q ≠ src ∧ q ≠ dst))) ++ [dst] }

/-! ## Blacklist (insertion-ordered dict from path to strike count) -/

/-- Dict lookup. -/
def blGet (bl : List (String × Int)) (k : String) : Option Int :=
  (bl.find? (fun e => decide (e.1 = k))).map Prod.snd

/-- Dict deletion (`del bl[k]`). -/
def blDel (bl : List (String × Int)) (k : String) : List (String × Int) :=
  bl.filter (fun e => decide (e.1 ≠ k))

/-- `bl[k] = 1` if absent, else `bl[k] = bl[k] + 1` (position preserved,
as for a Python dict update). -/
def blIncr (bl : List (String × Int)) (k : String) : List (String × Int) :=
  match blGet bl k with
  | none => bl ++ [(k, 1)]
  | some c => bl.map (fun e => if e.1 = k then (e.1, c + 1) else e)

example : blIncr [] "p" = [("p", 1)] := by decide
example : blIncr [("p", 1), ("q", 2)] "p" = [("p", 2), ("q", 2)] := by decide
example : blGet [("p", 1), ("q", 2)] "q" = some 2 := by decide

/-! ## Poller configuration (`Poller.__init__` fields used by the core) -/

structure Poller where
  input_dir : String
  output_dir : String
  tmp_dir : Option String
  delete_input : Bool
  continuous : Bool
  max_files : Int
  extensions : Option (List String)
  other_input_files : Option (List String)
  delete_other_input_files : Bool
  blacklist_tries : Int
  deriving Repr, DecidableEq

/-! ## `Poller.list_files`

The validator callback is `Option (String → Bool × Bool)`: the first
component is the verdict, the second records whether the callback invoked
`stop()` during the call. -/

/-- Lines 406-410: extension filter — with no configured extension list
every entry passes, otherwise the entry's `splitext` extension must be a
member of the list. -/
def extOk (cfg : Poller) (file_name : String) : Bool :=
  match cfg.extensions with
  | none => true
  | some exts => decide ((splitext file_name).2 ∈ exts)

/-- Mutable state threaded through one `list_files` call:
the filesystem, the blacklist, the accumulated `file_list`, and the
stop flag. -/
structure LState where
  w : World
  bl : List (String × Int)
  acc : List String
  stopped : Bool
  deriving Repr, DecidableEq

/-- Lines 413-426: run the validator on `file_path`; on success drop any
blacklist entry and append to the result, on failure create or bump the
strike count.  No validator means the file is accepted as-is. -/
def applyCheck (check : Option (String → Bool × Bool)) (st : LState)
    (file_path : String) : LState :=
  match check with
  | none => { st with acc := st.acc ++ [file_path] }
  | some f =>
    let r := f file_path
    if r.1 then
      { st with bl := blDel st.bl file_path, acc := st.acc ++ [file_path],
                stopped := st.stopped || r.2 }
    else
      { st with bl := blIncr st.bl file_path, stopped := st.stopped || r.2 }

/-- Keys whose strike count has reached the threshold (line 432). -/
def expiredKeys (tries : Int) (bl : List (String × Int)) : List String :=
  (bl.filter (fun e => decide (e.2 = tries))).map Prod.fst

/-- Lines 435-446: delete or relocate one expired file; an OS failure is
logged and swallowed, leaving the filesystem unchanged. -/
def sweepOne (cfg : Poller) (fail : List String) (w : World) (k : String) : World :=
  if cfg.delete_input then (opRemove fail w k).getD w
  else (opRename fail w k (joinPath cfg.output_dir (basename k))).getD w

/-- Lines 428-449: the post-entry blacklist sweep over the filesystem. -/
def sweepFs (cfg : Poller) (fail : List String) (w : World) (ks : List String) : World :=
  ks.foldl (sweepOne cfg fail) w

/-- One directory entry of the `list_files` loop body (lines 400-449):
skip directories and unmonitored extensions, run the validator, then
sweep expired blacklist entries. -/
def listStep (cfg : Poller) (fail : List String) (check : Option (String → Bool × Bool))
    (st : LState) (file_name : String) : LState :=
  let file_path := joinPath cfg.input_dir file_name
  if file_path ∈ st.w.dirs then st
  else if ¬ extOk cfg file_name then st
  else
    let st1 := applyCheck check st file_path
    let ks := expiredKeys cfg.blacklist_tries st1.bl
    { st1 with
      w := sweepFs cfg fail st1.w ks,
      bl := st1.bl.filter (fun e => decide (e.2 ≠ cfg.blacklist_tries)) }

/-- Outcome of the enumeration loop: completed, or cancelled mid-way
(line 396-398, the bare `return`). -/
inductive ListRes
  | done (st : LState)
  | cancelled (st : LState)
  deriving Repr, DecidableEq

/-- Lines 395-455: the enumeration loop over the `os.listdir` snapshot,
with the stop check at the top of each iteration and the `max_files`
cap check at the bottom. -/
def listLoop (cfg : Poller) (fail : List String) (check : Option (String → Bool × Bool)) :
    List String → LState → ListRes
  | [], st => .done st
  | n :: ns, st =>
    if st.stopped then .cancelled st
    else
      let st' := listStep cfg fail check st n
      if cfg.max_files > 0 ∧ (st'.acc.length : Int) = cfg.max_files then .done st'
      else listLoop cfg fail check ns st'

/-- The full result of one `list_files` call: the returned value (`none`
for Python's `None` on cancellation), and the state afterwards. -/
structure ListOut where
  res : Option (List String)
  w : World
  bl : List (String × Int)
  stopped : Bool
  deriving Repr, DecidableEq

/-- `Poller.list_files` (lines 379-468). -/
def listFiles (cfg : Poller) (fail : List String)
    (check : Option (String → Bool × Bool)) (w : World)
    (bl : List (String × Int)) (stopped : Bool) : ListOut :=
  if stopped then ⟨none, w, bl, stopped⟩
  else
    match listLoop cfg fail check (listdir cfg.input_dir w) ⟨w, bl, [], stopped⟩ with
    | .done st => ⟨some st.acc, st.w, st.bl, st.stopped⟩
    | .cancelled st => ⟨none, st.w, st.bl, st.stopped⟩

/-! ## `Poller.process_files`

Filesystem / callback events observable during processing.  `errLog`
models the `"Failed processing: %s" % file_path` error line emitted by the
per-file exception handler (line 530). -/

inductive Ev
  | procCall (path dest : String)
  | removed (path : String)
  | renamed (src dst : String)
  | errLog (path : String)
  deriving Repr, DecidableEq

/-- Which part of the per-file `try` block raised (distinguishable in the
real code through the debug/error messages surrounding each operation). -/
inductive PPhase
  | processor
  | outMove
  | inMove
  | sibling
  deriving Repr, DecidableEq

/-- The processor writes its declared output files (overwriting any
previous file at the same path). -/
def createFiles (w : World) (outs : List String) : World :=
  outs.foldl (fun w q => { w with files := w.files.filter (fun r => decide (r ≠ q)) ++ [q] }) w

/-- Lines 500-502: move every processor output into the output
directory; an OS error aborts the loop (propagating to the per-file
handler), keeping the moves already made. -/
def moveOuts (cfg : Poller) (fail : List String) :
    List String → World → World × List Ev × Bool
  | [], w => (w, [], true)
  | q :: qs, w =>
    let dst := joinPath cfg.output_dir (basename q)
    match opRename fail w q dst with
    | none => (w, [], false)
    | some w' =>
      let r := moveOuts cfg fail qs w'
      (r.1, .renamed q dst :: r.2.1, r.2.2)

/-- `glob.glob`: existing files whose full path matches the pattern.
The poller's sibling patterns contain no magic characters after the
placeholder substitution, so a literal-equality file-existence test is the
exercised fragment; `*` and `?` are supported for completeness. -/
def wildMatchF : Nat → List Char → List Char → Bool
  | 0, _, _ => false
  | fuel + 1, pat, s =>
    match pat, s with
    | [], [] => true
    | [], _ :: _ => false
    | p :: ps, [] => if p = '*' then wildMatchF fuel ps [] else false
    | p :: ps, c :: cs =>
      if p = '*' then wildMatchF fuel ps (c :: cs) || wildMatchF fuel (p :: ps) cs
      else if p = '?' then wildMatchF fuel ps cs
      else p = c && wildMatchF fuel ps cs

def wildMatch (pat s : List Char) : Bool :=
  wildMatchF (pat.length + s.length + 1) pat s

/-- Left-to-right, non-overlapping replacement of `pat` by `rep` in
`src` (the semantics of Python's `str.replace`), fuelled by the source
length so that it is structurally recursive. -/
def replaceF : Nat → List Char → List Char → List Char → List Char
  | 0, src, _, _ => src
  | fuel + 1, src, pat, rep =>
    match src with
    | [] => []
    | c :: rest =>
      if pat.isPrefixOf src then rep ++ replaceF fuel (src.drop pat.length) pat rep
      else c :: replaceF fuel rest pat rep

/-- `str.replace` on strings (for the non-empty patterns the poller
uses). -/
def strReplace (s pat rep : String) : String :=
  if pat.toList = [] then s
  else ⟨replaceF (s.toList.length + 1) s.toList pat.toList rep.toList⟩

example : strReplace "{NAME}.meta" "{NAME}" "/in/a" = "/in/a.meta" := by decide
example : strReplace "m_{NAME}.x" "{NAME}" "/in/a" = "m_/in/a.x" := by decide

def glob (pat : String) (w : World) : List String :=
  w.files.filter (fun p => wildMatch pat.toList p.toList)

/-- Lines 518-525: relocate or delete each sibling match; an OS error
propagates to the per-file handler. -/
def relocOthers (cfg : Poller) (fail : List String) :
    List String → World → World × List Ev × Bool
  | [], w => (w, [], true)
  | m :: ms, w =>
    let other_path := joinPath cfg.input_dir m
    if cfg.delete_other_input_files then
      match opRemove fail w other_path with
      | none => (w, [], false)
      | some w' =>
        let r := relocOthers cfg fail ms w'
        (r.1, .removed other_path :: r.2.1, r.2.2)
    else
      let dst := joinPath cfg.output_dir (basename other_path)
      match opRename fail w other_path dst with
      | none => (w, [], false)
      | some w' =>
        let r := relocOthers cfg fail ms w'
        (r.1, .renamed other_path dst :: r.2.1, r.2.2)

/-- Lines 515-525: for each configured pattern, substitute the input
file's extension-stripped *path* (`os.path.splitext(file_path)[0]`) for
the `{NAME}` placeholder, glob it against the input directory, and
relocate or delete every match. -/
def processSiblings (cfg : Poller) (fail : List String) (root : String) :
    List String → World → World × List Ev × Bool
  | [], w => (w, [], true)
  | pat :: ps, w =>
    let full := joinPath cfg.input_dir (strReplace pat "{NAME}" root)
    let r := relocOthers cfg fail (glob full w) w
    if r.2.2 then
      let r' := processSiblings cfg fail root ps r.1
      (r'.1, r.2.1 ++ r'.2.1, r'.2.2)
    else r

/-- Result of processing a single file of the batch. -/
structure POut where
  w : World
  evs : List Ev
  err : Option PPhase
  deriving Repr, DecidableEq

/-- Lines 506-512: relocate or delete the input file itself, per the
`delete_input` policy. -/
def inputStep (cfg : Poller) (fail : List String) (w : World)
    (file_path : String) : Option (World × Ev) :=
  if cfg.delete_input then
    (opRemove fail w file_path).map (fun w' => (w', .removed file_path))
  else
    let dst := joinPath cfg.output_dir (basename file_path)
    (opRename fail w file_path dst).map (fun w' => (w', .renamed file_path dst))

/-- Lines 506-525: relocate or delete the input file itself, then handle
the sibling files. -/
def afterInput (cfg : Poller) (fail : List String) (w : World) (evs : List Ev)
    (file_path : String) : POut :=
  match inputStep cfg fail w file_path with
  | none => ⟨w, evs, some .inMove⟩
  | some (w', ev) =>
    match cfg.other_input_files with
    | none => ⟨w', evs ++ [ev], none⟩
    | some pats =>
      let r := processSiblings cfg fail (splitext file_path).1 pats w'
      ⟨r.1, evs ++ [ev] ++ r.2.1, if r.2.2 then none else some .sibling⟩

/-- Lines 496-525: the per-file `try` block — processor call (with staging
via `tmp_dir` when configured), input relocation, sibling handling. -/
def processOne (cfg : Poller)
    (process : Option (String → String → Option (List String)))
    (fail : List String) (w : World) (file_path : String) : POut :=
  match process with
  | none => afterInput cfg fail w [] file_path
  | some pf =>
    match cfg.tmp_dir with
    | some t =>
      match pf file_path t with
      | none => ⟨w, [.procCall file_path t], some .processor⟩
      | some outs =>
        let r := moveOuts cfg fail outs (createFiles w outs)
        if r.2.2 then afterInput cfg fail r.1 (.procCall file_path t :: r.2.1) file_path
        else ⟨r.1, .procCall file_path t :: r.2.1, some .outMove⟩
    | none =>
      match pf file_path cfg.output_dir with
      | none => ⟨w, [.procCall file_path cfg.output_dir], some .processor⟩
      | some outs =>
        afterInput cfg fail (createFiles w outs)
          [.procCall file_path cfg.output_dir] file_path

/-- Lines 485-536: the batch loop.  A failure of one file is caught and
logged (`errLog`) and the loop continues with the next file; the third
component records, per path, which phase (if any) raised. -/
def processLoop (cfg : Poller)
    (process : Option (String → String → Option (List String)))
    (fail : List String) :
    List String → World → World × List Ev × List (String × Option PPhase)
  | [], w => (w, [], [])
  | p :: ps, w =>
    let r := processOne cfg process fail w p
    let errEv : List Ev := match r.err with | some _ => [.errLog p] | none => []
    let rest := processLoop cfg process fail ps r.w
    (rest.1, r.evs ++ errEv ++ rest.2.1, (p, r.err) :: rest.2.2)

/-- Result of one `process_files` call. -/
structure ProcOut where
  w : World
  evs : List Ev
  outcomes : List (String × Option PPhase)
  aborted : Bool
  deriving Repr, DecidableEq

/-- `Poller.process_files` (lines 470-545).  The stop flag is only
mutated by callbacks, which no claim exercises during processing, so it is
constant over the batch; the per-iteration stop check (line 486) then
coincides with the entry check (line 478). -/
def processFiles (cfg : Poller)
    (process : Option (String → String → Option (List String)))
    (fail : List String) (batch : List String) (w : World) (stopped : Bool) : ProcOut :=
  if stopped then ⟨w, [], [], true⟩
  else
    let r := processLoop cfg process fail batch w
    ⟨r.1, r.2.1, r.2.2, false⟩

/-! ## `Poller._simple_poll` (fixed-interval driver) -/

/-- Driver-level events: a `list_files` call (with its returned value),
a `sleep(self.poll_wait)`, a `process_files` call. -/
inductive DEv
  | listedEv (res : Option (List String))
  | sleptPollWait
  | processedEv (batch : List String)
  deriving Repr, DecidableEq

/-- How the driver ended: normal return from `_simple_poll`, fuel
exhaustion (still looping), or the `TypeError` raised by
`len(file_list)` when `list_files` returned `None` (line 556). -/
inductive DOut
  | finished
  | fuelOut
  | typeError
  deriving Repr, DecidableEq

structure PollRun where
  w : World
  bl : List (String × Int)
  stopped : Bool
  evs : List DEv
  out : DOut
  deriving Repr, DecidableEq

/-- `Poller._simple_poll` (lines 547-565), fuelled.  Each iteration:
check the stop flag, call `list_files`; an empty result ends the loop
(non-continuous) or sleeps and retries (continuous); a non-empty result is
passed to `process_files` and the loop repeats without sleeping.  A `none`
result from a cancelled `list_files` makes `len(file_list)` raise
`TypeError`. -/
def simplePoll (cfg : Poller) (fail : List String)
    (check : Option (String → Bool × Bool))
    (process : Option (String → String → Option (List String))) :
    Nat → World → List (String × Int) → Bool → PollRun
  | 0, w, bl, st => ⟨w, bl, st, [], .fuelOut⟩
  | Nat.succ n, w, bl, st =>
    if st then ⟨w, bl, st, [], .finished⟩
    else
      let lo := listFiles cfg fail check w bl st
      match lo.res with
      | none => ⟨lo.w, lo.bl, lo.stopped, [.listedEv none], .typeError⟩
      | some l =>
        if l.length = 0 then
          if cfg.continuous then
            let r := simplePoll cfg fail check process n lo.w lo.bl lo.stopped
            ⟨r.w, r.bl, r.stopped, .listedEv (some l) :: .sleptPollWait :: r.evs, r.out⟩
          else ⟨lo.w, lo.bl, lo.stopped, [.listedEv (some l)], .finished⟩
        else
          let po := processFiles cfg process fail l lo.w lo.stopped
          let r := simplePoll cfg fail check process n po.w lo.bl lo.stopped
          ⟨r.w, r.bl, r.stopped, .listedEv (some l) :: .processedEv l :: r.evs, r.out⟩

/-! ## `Poller.stop` and `Poller.is_busy` -/

/-- The poller's lifecycle flags (`_stopped`, `is_listing_files`,
`is_processing_files`). -/
structure Flags where
  stopped : Bool
  is_listing_files : Bool
  is_processing_files : Bool
  deriving Repr, DecidableEq

/-- `Poller.stop` (lines 311-319): sets the stopped flag and
unconditionally clears both liveness flags (the observer shutdown has no
effect on the flags). -/
def stop (_f : Flags) : Flags :=
  { stopped := true, is_listing_files := false, is_processing_files := false }

/-- `Poller.is_busy` (lines 331-339). -/
def is_busy (f : Flags) : Bool :=
  f.is_listing_files || f.is_processing_files

/-! ## Basic lemmas about the filesystem primitives -/

theorem opRemove_mem {fail : List String} {w : World} {p : String} {w' : World}
    (h : opRemove fail w p = some w') (x : String) :
    x ∈ w'.files ↔ x ∈ w.files ∧ x ≠ p := by
  unfold opRemove at h
  by_cases hc : p ∈ fail ∨ p ∉ w.files
  · rw [if_pos hc] at h
    exact Option.noConfusion h
  · rw [if_neg hc] at h
    injection h with h
    subst h
    simp [List.mem_filter]

theorem opRename_mem {fail : List String} {w : World} {s d : String} {w' : World}
    (h : opRename fail w s d = some w') (x : String) :
    x ∈ w'.files ↔ (x ∈ w.files ∧ x ≠ s ∧ x ≠ d) ∨ x = d := by
  unfold opRename at h
  by_cases hc : s ∈ fail ∨ s ∉ w.files
  · rw [if_pos hc] at h
    exact Option.noConfusion h
  · rw [if_neg hc] at h
    injection h with h
    subst h
    simp [List.mem_filter]

theorem opRemove_some {fail : List String} {w : World} {p : String}
    (hp : p ∈ w.files) (hf : p ∉ fail) :
    opRemove fail w p = some { w with files := w.files.filter (fun q => decide (q ≠ p)) } := by
  unfold opRemove
  rw [if_neg]
  push_neg
  exact ⟨hf, hp⟩

theorem opRename_some {fail : List String} {w : World} {s d : String}
    (hs : s ∈ w.files) (hf : s ∉ fail) :
    opRename fail w s d =
      some { w with files := (w.files.filter (fun q => decide (q ≠ s ∧ q ≠ d))) ++ [d] } := by
  unfold opRename
  rw [if_neg]
  push_neg
  exact ⟨hf, hs⟩

theorem createFiles_mem (outs : List String) (w : World) (x : String) :
    x ∈ (createFiles w outs).files ↔ x ∈ w.files ∨ x ∈ outs := by
  induction outs generalizing w with
  | nil => simp [createFiles]
  | cons q qs ih =>
    simp only [createFiles, List.foldl_cons] at *
    rw [ih]
    simp [List.mem_filter]
    by_cases hx : x = q <;> simp [hx]

/-! ## Claims -/

/-- **C10**: after `stop()` returns, `is_busy` is `False` — `stop`
unconditionally clears both liveness flags in addition to setting the
stopped flag, whatever state the flags were in. -/
theorem stop_forces_not_busy (f : Flags) :
    is_busy (stop f) = false ∧ (stop f).stopped = true :=
  ⟨rfl, rfl⟩

/-- **C9**: `max_files = 0` applies no per-cycle cap: `list_files` behaves
identically to the negative (unbounded) setting on every input, because
the cap test only fires for a strictly positive `max_files`. -/
theorem max_files_zero_is_unbounded (cfg : Poller) (fail : List String)
    (check : Option (String → Bool × Bool)) (w : World)
    (bl : List (String × Int)) (s : Bool) :
    listFiles { cfg with max_files := 0 } fail check w bl s =
      listFiles { cfg with max_files := -1 } fail check w bl s := by
  have hstep : ∀ (a b : Int) (st : LState) (n : String),
      listStep { cfg with max_files := a } fail check st n =
        listStep { cfg with max_files := b } fail check st n := by
    intro a b st n
    cases cfg
    rfl
  have hloop : ∀ (ns : List String) (st : LState),
      listLoop { cfg with max_files := 0 } fail check ns st =
        listLoop { cfg with max_files := -1 } fail check ns st := by
    intro ns
    induction ns with
    | nil => intro st; rfl
    | cons n ns ih =>
      intro st
      by_cases hst : st.stopped = true
      · simp only [listLoop, if_pos hst]
      · simp only [listLoop, if_neg hst]
        rw [hstep 0 (-1)]
        split_ifs <;> first
          | exact ih _
          | rfl
          | omega
  unfold listFiles
  split
  · rfl
  · rw [hloop]

/-- **C7**: one iteration of the fixed-interval driver while not
cancelled: it calls `list_files`; an empty result with continuous mode off
terminates the driver successfully; an empty result with continuous mode
on sleeps `poll_wait` and repeats; a non-empty result is handed to
`process_files` and the driver repeats immediately, with no sleep event in
between. -/
theorem simple_poll_driver_cases (cfg : Poller) (fail : List String)
    (check : Option (String → Bool × Bool))
    (process : Option (String → String → Option (List String)))
    (n : Nat) (w : World) (bl : List (String × Int)) (lo : ListOut)
    (hlo : listFiles cfg fail check w bl false = lo) :
    (lo.res = some [] → cfg.continuous = false →
      simplePoll cfg fail check process (n + 1) w bl false =
        ⟨lo.w, lo.bl, lo.stopped, [DEv.listedEv (some [])], DOut.finished⟩) ∧
    (lo.res = some [] → cfg.continuous = true →
      simplePoll cfg fail check process (n + 1) w bl false =
        (let r := simplePoll cfg fail check process n lo.w lo.bl lo.stopped
         ⟨r.w, r.bl, r.stopped, DEv.listedEv (some []) :: DEv.sleptPollWait :: r.evs,
          r.out⟩)) ∧
    (∀ l, lo.res = some l → l ≠ [] →
      simplePoll cfg fail check process (n + 1) w bl false =
        (let po := processFiles cfg process fail l lo.w lo.stopped
         let r := simplePoll cfg fail check process n po.w lo.bl lo.stopped
         ⟨r.w, r.bl, r.stopped, DEv.listedEv (some l) :: DEv.processedEv l :: r.evs,
          r.out⟩)) := by
  refine ⟨?_, ?_, ?_⟩
  · intro hres hcont
    simp only [simplePoll, Bool.false_eq_true, if_false, hlo, hres, hcont]
    rfl
  · intro hres hcont
    simp only [simplePoll, Bool.false_eq_true, if_false, hlo, hres, hcont, if_true]
    rfl
  · intro l hres hne
    simp only [simplePoll, Bool.false_eq_true, if_false, hlo, hres]
    rw [if_neg (by simpa using hne)]

/-- Concrete non-continuous configuration used to witness the driver
theorem. -/
def cfgDrv : Poller :=
  { input_dir := "/in", output_dir := "/out", tmp_dir := none,
    delete_input := false, continuous := false, max_files := -1,
    extensions := none, other_input_files := none,
    delete_other_input_files := false, blacklist_tries := 3 }

def cfgDrvC : Poller := { cfgDrv with continuous := true }

def wEmptyDir : World := ⟨[], []⟩

def wOneFile : World := ⟨["/in/a.txt"], []⟩

/-- Witness for the driver theorem: the three cases at concrete inputs
(empty directory, non-continuous; empty directory, continuous; one
file). -/
theorem simple_poll_driver_cases_witness :
    (simplePoll cfgDrv [] none none 3 wEmptyDir [] false =
      ⟨(listFiles cfgDrv [] none wEmptyDir [] false).w,
       (listFiles cfgDrv [] none wEmptyDir [] false).bl,
       (listFiles cfgDrv [] none wEmptyDir [] false).stopped,
       [DEv.listedEv (some [])], DOut.finished⟩) ∧
    (simplePoll cfgDrvC [] none none 3 wEmptyDir [] false =
      (let lo := listFiles cfgDrvC [] none wEmptyDir [] false
       let r := simplePoll cfgDrvC [] none none 2 lo.w lo.bl lo.stopped
       ⟨r.w, r.bl, r.stopped,
        DEv.listedEv (some []) :: DEv.sleptPollWait :: r.evs, r.out⟩)) ∧
    (simplePoll cfgDrv [] none none 3 wOneFile [] false =
      (let lo := listFiles cfgDrv [] none wOneFile [] false
       let po := processFiles cfgDrv none [] ["/in/a.txt"] lo.w lo.stopped
       let r := simplePoll cfgDrv [] none none 2 po.w lo.bl lo.stopped
       ⟨r.w, r.bl, r.stopped,
        DEv.listedEv (some ["/in/a.txt"]) :: DEv.processedEv ["/in/a.txt"] :: r.evs,
        r.out⟩)) := by
  refine ⟨?_, ?_, ?_⟩
  · exact (simple_poll_driver_cases cfgDrv [] none none 2 wEmptyDir [] _ rfl).1
      (by decide) rfl
  · exact (simple_poll_driver_cases cfgDrvC [] none none 2 wEmptyDir [] _ rfl).2.1
      (by decide) rfl
  · exact (simple_poll_driver_cases cfgDrv [] none none 2 wOneFile [] _ rfl).2.2
      ["/in/a.txt"] (by decide) (by decide)

/-- Concrete scenario for **C6**: two eligible files; the validator
invokes `stop()` while checking the first one (the documented way a
callback reports a fatal error), so the next loop iteration of
`list_files` observes the stop flag. -/
def cfgStop : Poller :=
  { input_dir := "/in", output_dir := "/out", tmp_dir := none,
    delete_input := false, continuous := false, max_files := -1,
    extensions := none, other_input_files := none,
    delete_other_input_files := false, blacklist_tries := 3 }

def wStop : World := ⟨["/in/a.txt", "/in/b.txt"], []⟩

def chkStop : String → Bool × Bool := fun p => (true, decide (p = "/in/a.txt"))

/-- **C6** (the code violates the claim): when the stop flag is observed
mid-enumeration, `list_files` does return with no result (Python `None`) —
but the fixed-interval driver then evaluates `len(None)`, which raises
`TypeError`, so `poll` terminates with an error rather than unwinding
cleanly. -/
theorem cancellation_crashes_driver :
    (listFiles cfgStop [] (some chkStop) wStop [] false).res = none ∧
    (simplePoll cfgStop [] (some chkStop) none 5 wStop [] false).out =
      DOut.typeError := by
  constructor <;> rfl

/-! ### Lemmas for `process_files` -/

theorem moveOuts_fst_mem (cfg : Poller) (fail : List String) (qs : List String)
    (w : World) (x : String) (hx : x ∈ w.files) (hqs : x ∉ qs) :
    x ∈ (moveOuts cfg fail qs w).1.files := by
  induction qs generalizing w with
  | nil => simpa [moveOuts]
  | cons q qs ih =>
    simp only [moveOuts]
    cases hr : opRename fail w q (joinPath cfg.output_dir (basename q)) with
    | none => simpa using hx
    | some w' =>
      simp only []
      refine ih w' ?_ (fun hmem => hqs (List.mem_cons_of_mem _ hmem))
      rw [opRename_mem hr]
      by_cases hd : x = joinPath cfg.output_dir (basename q)
      · exact Or.inr hd
      · exact Or.inl ⟨hx, fun hq => hqs (hq ▸ List.mem_cons_self _ _), hd⟩

/-- If `processOne` raised in a phase that precedes the sibling handling,
the input file is still present afterwards (its own relocation either did
not start or failed atomically). -/
theorem processOne_err_before_sibling_keeps_input (cfg : Poller)
    (process : Option (String → String → Option (List String)))
    (fail : List String) (w : World) (p : String) (e : PPhase)
    (hp : p ∈ w.files)
    (hout : ∀ pf dest outs, process = some pf → pf p dest = some outs → p ∉ outs)
    (herr : (processOne cfg process fail w p).err = some e)
    (hns : e ≠ PPhase.sibling) :
    p ∈ (processOne cfg process fail w p).w.files := by
  have hafter : ∀ (w0 : World) (evs : List Ev), p ∈ w0.files →
      (afterInput cfg fail w0 evs p).err = some e →
      p ∈ (afterInput cfg fail w0 evs p).w.files := by
    intro w0 evs hp0 herr0
    unfold afterInput at herr0 ⊢
    cases hstep : inputStep cfg fail w0 p with
    | none => simpa [hstep] using hp0
    | some pr =>
      rw [hstep] at herr0
      cases hoth : cfg.other_input_files with
      | none => rw [hoth] at herr0; exact absurd herr0 (by simp)
      | some pats =>
        rw [hoth] at herr0
        simp only [] at herr0
        split at herr0
        · exact absurd herr0 (by simp)
        · exact absurd (Option.some.inj herr0).symm hns
  cases hpr : process with
  | none =>
    simp only [processOne, hpr] at herr ⊢
    exact hafter w [] hp herr
  | some pf =>
    cases htmp : cfg.tmp_dir with
    | some t =>
      cases hf : pf p t with
      | none =>
        simp only [processOne, hpr, htmp, hf] at herr ⊢
        exact hp
      | some outs =>
        simp only [processOne, hpr, htmp, hf] at herr ⊢
        have hpc : p ∈ (createFiles w outs).files := by
          rw [createFiles_mem]; exact Or.inl hp
        have hpm : p ∈ (moveOuts cfg fail outs (createFiles w outs)).1.files :=
          moveOuts_fst_mem cfg fail outs _ p hpc (hout pf t outs hpr hf)
        by_cases hok : (moveOuts cfg fail outs (createFiles w outs)).2.2 = true
        · rw [if_pos hok] at herr ⊢
          exact hafter _ _ hpm herr
        · rw [if_neg hok] at herr ⊢
          exact hpm
    | none =>
      cases hf : pf p cfg.output_dir with
      | none =>
        simp only [processOne, hpr, htmp, hf] at herr ⊢
        exact hp
      | some outs =>
        simp only [processOne, hpr, htmp, hf] at herr ⊢
        have hpc : p ∈ (createFiles w outs).files := by
          rw [createFiles_mem]; exact Or.inl hp
        exact hafter _ _ hpc herr

theorem processLoop_outcomes_fst (cfg : Poller)
    (process : Option (String → String → Option (List String)))
    (fail : List String) :
    ∀ (batch : List String) (w : World),
      ((processLoop cfg process fail batch w).2.2).map Prod.fst = batch := by
  intro batch
  induction batch with
  | nil => intro w; rfl
  | cons p ps ih =>
    intro w
    simp only [processLoop, List.map_cons, List.cons.injEq]
    exact ⟨trivial, ih _⟩

theorem processLoop_errLog (cfg : Poller)
    (process : Option (String → String → Option (List String)))
    (fail : List String) :
    ∀ (batch : List String) (w : World) (p : String) (e : PPhase),
      (p, some e) ∈ (processLoop cfg process fail batch w).2.2 →
      Ev.errLog p ∈ (processLoop cfg process fail batch w).2.1 := by
  intro batch
  induction batch with
  | nil => intro w p e h; exact absurd h (by simp [processLoop])
  | cons q ps ih =>
    intro w p e h
    simp only [processLoop, List.mem_cons] at h
    simp only [processLoop, List.mem_append]
    rcases h with h | h
    · have h1 : p = q := congrArg Prod.fst h
      have h2 : (processOne cfg process fail w q).err = some e :=
        (congrArg Prod.snd h).symm
      subst h1
      left
      right
      simp [h2]
    · right
      exact ih _ p e h

/-- Configuration with one sibling pattern, used for the C2
counterexample and the C4 theorems. -/
def cfgSib : Poller :=
  { input_dir := "/in", output_dir := "/out", tmp_dir := none,
    delete_input := false, continuous := false, max_files := -1,
    extensions := none, other_input_files := some ["{NAME}.meta"],
    delete_other_input_files := false, blacklist_tries := 3 }

def wSib : World := ⟨["/in/a.txt", "/in/a.meta"], []⟩

/-- **C2** is falsified as stated: with sibling pattern `{NAME}.meta`,
input `a.txt` and an OS error on relocating the sibling `a.meta`, the
error *is* caught and logged with the failing path — but the input file
`a.txt` has already been moved out of the input directory, so it is not
"left in place". -/
theorem process_files_error_counterexample :
    ((processFiles cfgSib none ["/in/a.meta"] ["/in/a.txt"] wSib false).outcomes =
      [("/in/a.txt", some PPhase.sibling)]) ∧
    Ev.errLog "/in/a.txt" ∈
      (processFiles cfgSib none ["/in/a.meta"] ["/in/a.txt"] wSib false).evs ∧
    "/in/a.txt" ∉
      (processFiles cfgSib none ["/in/a.meta"] ["/in/a.txt"] wSib false).w.files := by
  refine ⟨by decide, by decide, by decide⟩

/-- **C2 (amended)**: an error while processing one path is caught,
logged with the failing path identified, and the batch continues with the
next path; moreover the failed input file is still present whenever the
error arose in a phase up to and including the input file's own
relocation (processor call, staged-output relocation, or the input
relocation itself) — an error in the later sibling-handling phase occurs
after the input file has already been relocated or deleted. -/
theorem process_files_error_isolation (cfg : Poller)
    (process : Option (String → String → Option (List String)))
    (fail : List String) (batch : List String) (w : World) :
    ((processFiles cfg process fail batch w false).outcomes.map Prod.fst = batch) ∧
    (∀ p e, (p, some e) ∈ (processFiles cfg process fail batch w false).outcomes →
      Ev.errLog p ∈ (processFiles cfg process fail batch w false).evs) ∧
    (∀ (w0 : World) (p : String) (e : PPhase),
      p ∈ w0.files →
      (∀ pf dest outs, process = some pf → pf p dest = some outs → p ∉ outs) →
      (processOne cfg process fail w0 p).err = some e →
      e ≠ PPhase.sibling →
      p ∈ (processOne cfg process fail w0 p).w.files) := by
  refine ⟨?_, ?_, ?_⟩
  · simpa [processFiles] using processLoop_outcomes_fst cfg process fail batch w
  · intro p e h
    simp only [processFiles, Bool.false_eq_true, if_false] at h ⊢
    exact processLoop_errLog cfg process fail batch w p e h
  · intro w0 p e hp hout herr hns
    exact processOne_err_before_sibling_keeps_input cfg process fail w0 p e hp hout herr hns

/-- Witness for the amended C2 theorem at a concrete instance: the
counterexample scenario itself, where the batch continues and the error
is logged, plus the preservation conjunct at a processor failure. -/
theorem process_files_error_isolation_witness :
    ((processFiles cfgSib none ["/in/a.meta"] ["/in/a.txt", "/in/a.meta"] wSib
        false).outcomes.map Prod.fst = ["/in/a.txt", "/in/a.meta"]) ∧
    "/in/a.txt" ∈
      (processOne cfgSib (some (fun _ _ => none)) [] wSib "/in/a.txt").w.files := by
  constructor
  · exact (process_files_error_isolation cfgSib none ["/in/a.meta"]
      ["/in/a.txt", "/in/a.meta"] wSib).1
  · exact (process_files_error_isolation cfgSib (some (fun _ _ => none)) [] [] wSib).2.2
      wSib "/in/a.txt" PPhase.processor (by decide)
      (fun pf dest outs hpf hf => by
        cases hpf
        cases hf)
      (by decide) (by decide)

theorem moveOuts_fst_not_mem (cfg : Poller) (fail : List String) :
    ∀ (qs : List String) (w : World) (x : String), x ∉ w.files →
      (∀ q ∈ qs, joinPath cfg.output_dir (basename q) ≠ x) →
      x ∉ (moveOuts cfg fail qs w).1.files := by
  intro qs
  induction qs with
  | nil => intro w x hx _; simpa [moveOuts] using hx
  | cons q qs ih =>
    intro w x hx hd
    simp only [moveOuts]
    cases hr : opRename fail w q (joinPath cfg.output_dir (basename q)) with
    | none => simpa using hx
    | some w' =>
      refine ih w' x ?_ (fun q' hq' => hd q' (List.mem_cons_of_mem _ hq'))
      rw [opRename_mem hr]
      rintro (⟨hxw, -, -⟩ | hxd)
      · exact hx hxw
      · exact hd q (List.mem_cons_self _ _) hxd.symm

/-- When every output exists, is outside the failure set, and no
relocation target collides with a source, `moveOuts` succeeds and each
output ends up (only) at its destination in the output directory. -/
theorem moveOuts_success (cfg : Poller) (fail : List String) :
    ∀ (outs : List String) (w : World),
      outs.Nodup →
      (∀ q ∈ outs, q ∈ w.files ∧ q ∉ fail) →
      (∀ q q', q ∈ outs → q' ∈ outs → joinPath cfg.output_dir (basename q') ≠ q) →
      (moveOuts cfg fail outs w).2.2 = true ∧
      ∀ q ∈ outs,
        Ev.renamed q (joinPath cfg.output_dir (basename q)) ∈
          (moveOuts cfg fail outs w).2.1 ∧
        joinPath cfg.output_dir (basename q) ∈ (moveOuts cfg fail outs w).1.files ∧
        q ∉ (moveOuts cfg fail outs w).1.files := by
  intro outs
  induction outs with
  | nil =>
    intro w _ _ _
    exact ⟨rfl, by simp⟩
  | cons q qs ih =>
    intro w hnd hin hdq
    have hq := hin q (List.mem_cons_self _ _)
    have hr := opRename_some (w := w) (d := joinPath cfg.output_dir (basename q))
      hq.1 hq.2
    set w' := { w with
      files := (w.files.filter
        (fun r => decide (r ≠ q ∧ r ≠ joinPath cfg.output_dir (basename q)))) ++
        [joinPath cfg.output_dir (basename q)] } with hw'
    have hrec := ih w' (List.Nodup.of_cons hnd)
      (fun q2 hq2 => by
        refine ⟨?_, (hin q2 (List.mem_cons_of_mem _ hq2)).2⟩
        rw [opRename_mem hr]
        refine Or.inl ⟨(hin q2 (List.mem_cons_of_mem _ hq2)).1, ?_, ?_⟩
        · exact fun hqq => (List.nodup_cons.mp hnd).1 (hqq ▸ hq2)
        · intro hqd
          exact hdq q2 q (List.mem_cons_of_mem _ hq2) (List.mem_cons_self _ _) hqd.symm)
      (fun a b ha hb =>
        hdq a b (List.mem_cons_of_mem _ ha) (List.mem_cons_of_mem _ hb))
    simp only [moveOuts, hr]
    refine ⟨hrec.1, ?_⟩
    intro q2 hq2
    rcases List.mem_cons.mp hq2 with rfl | hq2
    · refine ⟨List.mem_cons_self _ _, ?_, ?_⟩
      · refine moveOuts_fst_mem cfg fail qs w' _ ?_ ?_
        · rw [opRename_mem hr]
          exact Or.inr rfl
        · intro hmem
          exact hdq (joinPath cfg.output_dir (basename q2)) q2
            (List.mem_cons_of_mem _ hmem) (List.mem_cons_self _ _) rfl
      · refine moveOuts_fst_not_mem cfg fail qs w' q2 ?_ ?_
        · rw [opRename_mem hr]
          rintro (⟨-, hne, -⟩ | hqd)
          · exact hne rfl
          · exact hdq q2 q2 (List.mem_cons_self _ _) (List.mem_cons_self _ _) hqd.symm
        · intro q' hq'
          exact hdq q2 q' (List.mem_cons_self _ _) (List.mem_cons_of_mem _ hq')
    · have h3 := hrec.2 q2 hq2
      exact ⟨List.mem_cons_of_mem _ h3.1, h3.2.1, h3.2.2⟩

theorem afterInput_mem_preserved (cfg : Poller) (fail : List String)
    (w0 : World) (evs : List Ev) (p x : String)
    (hoth : cfg.other_input_files = none)
    (hx : x ∈ w0.files) (hxp : x ≠ p) :
    x ∈ (afterInput cfg fail w0 evs p).w.files := by
  unfold afterInput inputStep
  cases hdel : cfg.delete_input with
  | true =>
    cases hr : opRemove fail w0 p with
    | none => simpa [hdel, hr] using hx
    | some w' =>
      simp only [hdel, hr, hoth, if_true, Option.map_some']
      rw [opRemove_mem hr]
      exact ⟨hx, hxp⟩
  | false =>
    cases hr : opRename fail w0 p (joinPath cfg.output_dir (basename p)) with
    | none => simpa [hdel, hr] using hx
    | some w' =>
      simp only [hdel, hr, hoth, Bool.false_eq_true, if_false, Option.map_some']
      rw [opRename_mem hr]
      by_cases hxd : x = joinPath cfg.output_dir (basename p)
      · exact Or.inr hxd
      · exact Or.inl ⟨hx, hxp, hxd⟩

theorem afterInput_not_mem_preserved (cfg : Poller) (fail : List String)
    (w0 : World) (evs : List Ev) (p x : String)
    (hoth : cfg.other_input_files = none)
    (hx : x ∉ w0.files) (hxd : x ≠ joinPath cfg.output_dir (basename p)) :
    x ∉ (afterInput cfg fail w0 evs p).w.files := by
  unfold afterInput inputStep
  cases hdel : cfg.delete_input with
  | true =>
    cases hr : opRemove fail w0 p with
    | none => simpa [hdel, hr] using hx
    | some w' =>
      simp only [hdel, hr, hoth, if_true, Option.map_some']
      rw [opRemove_mem hr]
      rintro ⟨hxw, -⟩
      exact hx hxw
  | false =>
    cases hr : opRename fail w0 p (joinPath cfg.output_dir (basename p)) with
    | none => simpa [hdel, hr] using hx
    | some w' =>
      simp only [hdel, hr, hoth, Bool.false_eq_true, if_false, Option.map_some']
      rw [opRename_mem hr]
      rintro (⟨hxw, -, -⟩ | hd)
      · exact hx hxw
      · exact hxd hd

theorem afterInput_evs_shape (cfg : Poller) (fail : List String)
    (w0 : World) (evs : List Ev) (p : String)
    (hoth : cfg.other_input_files = none) :
    (afterInput cfg fail w0 evs p).evs = evs ∨
    (afterInput cfg fail w0 evs p).evs = evs ++ [Ev.removed p] ∨
    (afterInput cfg fail w0 evs p).evs =
      evs ++ [Ev.renamed p (joinPath cfg.output_dir (basename p))] := by
  unfold afterInput inputStep
  cases hdel : cfg.delete_input with
  | true =>
    cases hr : opRemove fail w0 p with
    | none => left; simp [hdel, hr]
    | some w' => right; left; simp [hdel, hr, hoth]
  | false =>
    cases hr : opRename fail w0 p (joinPath cfg.output_dir (basename p)) with
    | none => left; simp [hdel, hr]
    | some w' => right; right; simp [hdel, hr, hoth]

theorem afterInput_evs_mono (cfg : Poller) (fail : List String)
    (w0 : World) (evs : List Ev) (p : String)
    (hoth : cfg.other_input_files = none) (e : Ev) (he : e ∈ evs) :
    e ∈ (afterInput cfg fail w0 evs p).evs := by
  rcases afterInput_evs_shape cfg fail w0 evs p hoth with h | h | h <;>
    rw [h] <;> simp [he]

/-- **C8**: with a staging directory configured, the processor is
invoked with the staging directory as destination and every path it
returns is relocated into the output directory; without one, the
processor is invoked with the output directory as destination and none of
its declared outputs is relocated (they stay where written). -/
theorem staging_directory_semantics (cfg : Poller) (fail : List String)
    (pf : String → String → Option (List String)) (w : World) (p : String) :
    (∀ t outs,
      cfg.tmp_dir = some t →
      pf p t = some outs →
      cfg.other_input_files = none →
      outs.Nodup →
      (∀ q ∈ outs, q ∉ fail) →
      (∀ q ∈ outs, parentDir q = t) →
      (∀ q ∈ outs, parentDir (joinPath cfg.output_dir (basename q)) = cfg.output_dir) →
      parentDir (joinPath cfg.output_dir (basename p)) = cfg.output_dir →
      parentDir p = cfg.input_dir →
      t ≠ cfg.output_dir →
      cfg.input_dir ≠ cfg.output_dir →
      Ev.procCall p t ∈ (processOne cfg (some pf) fail w p).evs ∧
      ∀ q ∈ outs,
        Ev.renamed q (joinPath cfg.output_dir (basename q)) ∈
          (processOne cfg (some pf) fail w p).evs ∧
        joinPath cfg.output_dir (basename q) ∈
          (processOne cfg (some pf) fail w p).w.files ∧
        q ∉ (processOne cfg (some pf) fail w p).w.files) ∧
    (∀ outs,
      cfg.tmp_dir = none →
      pf p cfg.output_dir = some outs →
      cfg.other_input_files = none →
      p ∉ outs →
      Ev.procCall p cfg.output_dir ∈ (processOne cfg (some pf) fail w p).evs ∧
      ∀ q ∈ outs,
        (∀ d, Ev.renamed q d ∉ (processOne cfg (some pf) fail w p).evs) ∧
        q ∈ (processOne cfg (some pf) fail w p).w.files) := by
  constructor
  · intro t outs htmp hf hoth hnd hfail hpar hdstpar hdp hppar htne hio
    have hcol : ∀ q q', q ∈ outs → q' ∈ outs →
        joinPath cfg.output_dir (basename q') ≠ q := by
      intro q q' hq hq' heq
      have h1 := hpar q hq
      have h2 := hdstpar q' hq'
      rw [heq] at h2
      exact htne (h1.symm.trans h2)
    have hms := moveOuts_success cfg fail outs (createFiles w outs) hnd
      (fun q hq => ⟨(createFiles_mem outs w q).mpr (Or.inr hq), hfail q hq⟩) hcol
    simp only [processOne, htmp, hf]
    rw [if_pos hms.1]
    constructor
    · exact afterInput_evs_mono cfg fail _ _ p hoth _ (List.mem_cons_self _ _)
    · intro q hq
      have h3 := hms.2 q hq
      refine ⟨?_, ?_, ?_⟩
      · exact afterInput_evs_mono cfg fail _ _ p hoth _
          (List.mem_cons_of_mem _ h3.1)
      · refine afterInput_mem_preserved cfg fail _ _ p _ hoth h3.2.1 ?_
        intro heq
        have := hdstpar q hq
        rw [heq] at this
        exact hio (hppar.symm.trans this)
      · refine afterInput_not_mem_preserved cfg fail _ _ p q hoth h3.2.2 ?_
        intro heq
        have h4 := hpar q hq
        rw [heq] at h4
        exact htne (h4.symm.trans hdp)
  · intro outs htmp hf hoth hpo
    simp only [processOne, htmp, hf]
    have hevshape := afterInput_evs_shape cfg fail (createFiles w outs)
      [Ev.procCall p cfg.output_dir] p hoth
    constructor
    · exact afterInput_evs_mono cfg fail _ _ p hoth _ (List.mem_cons_self _ _)
    · intro q hq
      constructor
      · intro d hmem
        have hqp : q ≠ p := fun h => hpo (h ▸ hq)
        rcases hevshape with h | h | h <;> rw [h] at hmem <;> simp at hmem
        · exact absurd hmem.1 hqp
      · refine afterInput_mem_preserved cfg fail _ _ p q hoth
          ((createFiles_mem outs w q).mpr (Or.inr hq)) (fun h => hpo (h ▸ hq))

/-- Concrete staging configuration for the C8 witness. -/
def cfgStage : Poller :=
  { input_dir := "/in", output_dir := "/out", tmp_dir := some "/stage",
    delete_input := false, continuous := false, max_files := -1,
    extensions := none, other_input_files := none,
    delete_other_input_files := false, blacklist_tries := 3 }

def cfgDirect : Poller := { cfgStage with tmp_dir := none }

def pfStage : String → String → Option (List String) :=
  fun p d => some [joinPath d (basename p ++ ".done")]

/-- Witness for the staging theorem at a concrete processor and file. -/
theorem staging_directory_semantics_witness :
    (Ev.procCall "/in/a.txt" "/stage" ∈
        (processOne cfgStage (some pfStage) [] wOneFile "/in/a.txt").evs ∧
      ∀ q ∈ ["/stage/a.txt.done"],
        Ev.renamed q (joinPath "/out" (basename q)) ∈
          (processOne cfgStage (some pfStage) [] wOneFile "/in/a.txt").evs ∧
        joinPath "/out" (basename q) ∈
          (processOne cfgStage (some pfStage) [] wOneFile "/in/a.txt").w.files ∧
        q ∉ (processOne cfgStage (some pfStage) [] wOneFile "/in/a.txt").w.files) ∧
    (Ev.procCall "/in/a.txt" "/out" ∈
        (processOne cfgDirect (some pfStage) [] wOneFile "/in/a.txt").evs ∧
      ∀ q ∈ ["/out/a.txt.done"],
        (∀ d, Ev.renamed q d ∉
          (processOne cfgDirect (some pfStage) [] wOneFile "/in/a.txt").evs) ∧
        q ∈ (processOne cfgDirect (some pfStage) [] wOneFile "/in/a.txt").w.files) := by
  constructor
  · exact (staging_directory_semantics cfgStage [] pfStage wOneFile "/in/a.txt").1
      "/stage" ["/stage/a.txt.done"] rfl rfl rfl (by decide) (by decide) (by decide)
      (by decide) (by decide) (by decide) (by decide) (by decide)
  · exact (staging_directory_semantics cfgDirect [] pfStage wOneFile "/in/a.txt").2
      ["/out/a.txt.done"] rfl rfl rfl (by decide)

/-! ### Lemmas for sibling handling (`relocOthers`, `processSiblings`) -/

theorem relocOthers_mem (cfg : Poller) (fail : List String) :
    ∀ (ms : List String) (w : World) (x : String), x ∈ w.files →
      (∀ m ∈ ms, joinPath cfg.input_dir m ≠ x) →
      x ∈ (relocOthers cfg fail ms w).1.files := by
  intro ms
  induction ms with
  | nil => intro w x hx _; simpa [relocOthers] using hx
  | cons m ms ih =>
    intro w x hx hne
    simp only [relocOthers]
    cases hdel : cfg.delete_other_input_files with
    | true =>
      simp only [if_true]
      cases hr : opRemove fail w (joinPath cfg.input_dir m) with
      | none => simpa using hx
      | some w' =>
        refine ih w' x ?_ (fun m' hm' => hne m' (List.mem_cons_of_mem _ hm'))
        rw [opRemove_mem hr]
        exact ⟨hx, fun hh => hne m (List.mem_cons_self _ _) hh.symm⟩
    | false =>
      simp only [Bool.false_eq_true, if_false]
      cases hr : opRename fail w (joinPath cfg.input_dir m)
          (joinPath cfg.output_dir (basename (joinPath cfg.input_dir m))) with
      | none => simpa using hx
      | some w' =>
        refine ih w' x ?_ (fun m' hm' => hne m' (List.mem_cons_of_mem _ hm'))
        rw [opRename_mem hr]
        by_cases hxd : x = joinPath cfg.output_dir (basename (joinPath cfg.input_dir m))
        · exact Or.inr hxd
        · exact Or.inl ⟨hx, fun hh => hne m (List.mem_cons_self _ _) hh.symm, hxd⟩

theorem relocOthers_not_mem (cfg : Poller) (fail : List String) :
    ∀ (ms : List String) (w : World) (x : String), x ∉ w.files →
      (∀ m ∈ ms, joinPath cfg.output_dir (basename (joinPath cfg.input_dir m)) ≠ x) →
      x ∉ (relocOthers cfg fail ms w).1.files := by
  intro ms
  induction ms with
  | nil => intro w x hx _; simpa [relocOthers] using hx
  | cons m ms ih =>
    intro w x hx hne
    simp only [relocOthers]
    cases hdel : cfg.delete_other_input_files with
    | true =>
      simp only [if_true]
      cases hr : opRemove fail w (joinPath cfg.input_dir m) with
      | none => simpa using hx
      | some w' =>
        refine ih w' x ?_ (fun m' hm' => hne m' (List.mem_cons_of_mem _ hm'))
        rw [opRemove_mem hr]
        rintro ⟨hxw, -⟩
        exact hx hxw
    | false =>
      simp only [Bool.false_eq_true, if_false]
      cases hr : opRename fail w (joinPath cfg.input_dir m)
          (joinPath cfg.output_dir (basename (joinPath cfg.input_dir m))) with
      | none => simpa using hx
      | some w' =>
        refine ih w' x ?_ (fun m' hm' => hne m' (List.mem_cons_of_mem _ hm'))
        rw [opRename_mem hr]
        rintro (⟨hxw, -, -⟩ | hxd)
        · exact hx hxw
        · exact hne m (List.mem_cons_self _ _) hxd.symm

/-- When every match is an existing absolute path outside the failure
set and no relocation target collides with a match, `relocOthers`
succeeds, and every match is deleted (delete policy) or moved to the
output directory (move policy). -/
theorem relocOthers_success (cfg : Poller) (fail : List String) :
    ∀ (ms : List String) (w : World),
      ms.Nodup →
      (∀ m ∈ ms, m ∈ w.files ∧ m ∉ fail ∧ joinPath cfg.input_dir m = m) →
      (∀ m m', m ∈ ms → m' ∈ ms → joinPath cfg.output_dir (basename m') ≠ m) →
      (relocOthers cfg fail ms w).2.2 = true ∧
      ∀ m ∈ ms,
        m ∉ (relocOthers cfg fail ms w).1.files ∧
        (cfg.delete_other_input_files = true →
          Ev.removed m ∈ (relocOthers cfg fail ms w).2.1) ∧
        (cfg.delete_other_input_files = false →
          Ev.renamed m (joinPath cfg.output_dir (basename m)) ∈
            (relocOthers cfg fail ms w).2.1 ∧
          joinPath cfg.output_dir (basename m) ∈ (relocOthers cfg fail ms w).1.files) := by
  intro ms
  induction ms with
  | nil => intro w _ _ _; exact ⟨rfl, by simp⟩
  | cons m ms ih =>
    intro w hnd hin hcol
    have hm := hin m (List.mem_cons_self _ _)
    have habs : joinPath cfg.input_dir m = m := hm.2.2
    have htailcol : ∀ (a b : String), a ∈ ms → b ∈ ms →
        joinPath cfg.output_dir (basename b) ≠ a :=
      fun a b ha hb => hcol a b (List.mem_cons_of_mem _ ha) (List.mem_cons_of_mem _ hb)
    have htailin : ∀ (w' : World),
        (∀ x, x ∈ w.files ∧ x ≠ m → x ∈ w'.files) →
        ∀ m2 ∈ ms, m2 ∈ w'.files ∧ m2 ∉ fail ∧ joinPath cfg.input_dir m2 = m2 := by
      intro w' hw' m2 hm2
      refine ⟨hw' m2 ⟨(hin m2 (List.mem_cons_of_mem _ hm2)).1, ?_⟩,
        (hin m2 (List.mem_cons_of_mem _ hm2)).2.1,
        (hin m2 (List.mem_cons_of_mem _ hm2)).2.2⟩
      exact fun hh => (List.nodup_cons.mp hnd).1 (hh ▸ hm2)
    have hnotcol : ∀ m' ∈ ms, joinPath cfg.output_dir
        (basename (joinPath cfg.input_dir m')) ≠ m := by
      intro m' hm'
      rw [(hin m' (List.mem_cons_of_mem _ hm')).2.2]
      exact hcol m m' (List.mem_cons_self _ _) (List.mem_cons_of_mem _ hm')
    simp only [relocOthers, habs]
    cases hdel : cfg.delete_other_input_files with
    | true =>
      simp only [if_true]
      rw [opRemove_some hm.1 hm.2.1]
      simp only []
      have himp : ∀ x, x ∈ w.files ∧ x ≠ m →
          x ∈ (({ w with files := w.files.filter (fun q => decide (q ≠ m)) } : World)).files := by
        intro x hx
        simp only [List.mem_filter, decide_eq_true_eq]
        exact hx
      have hrec := ih _ (List.Nodup.of_cons hnd) (htailin _ himp) htailcol
      refine ⟨hrec.1, ?_⟩
      intro m2 hm2
      rcases List.mem_cons.mp hm2 with rfl | hm2
      · refine ⟨?_, fun _ => List.mem_cons_self _ _,
          fun hcontra => absurd hcontra (by simp)⟩
        refine relocOthers_not_mem cfg fail ms _ m2 ?_ hnotcol
        simp only [List.mem_filter, decide_eq_true_eq]
        rintro ⟨-, hne⟩
        exact hne rfl
      · have h3 := hrec.2 m2 hm2
        exact ⟨h3.1, fun _ => List.mem_cons_of_mem _ (h3.2.1 hdel),
          fun hcontra => absurd hcontra (by simp)⟩
    | false =>
      simp only [Bool.false_eq_true, if_false]
      rw [opRename_some hm.1 hm.2.1]
      simp only []
      have himp : ∀ x, x ∈ w.files ∧ x ≠ m →
          x ∈ (({ w with files := (w.files.filter
              (fun q => decide (q ≠ m ∧ q ≠ joinPath cfg.output_dir (basename m)))) ++
              [joinPath cfg.output_dir (basename m)] } : World)).files := by
        intro x hx
        simp only [List.mem_append, List.mem_filter, decide_eq_true_eq,
          List.mem_singleton]
        by_cases hx2 : x = joinPath cfg.output_dir (basename m)
        · exact Or.inr hx2
        · exact Or.inl ⟨hx.1, hx.2, hx2⟩
      have hrec := ih _ (List.Nodup.of_cons hnd) (htailin _ himp) htailcol
      refine ⟨hrec.1, ?_⟩
      intro m2 hm2
      rcases List.mem_cons.mp hm2 with rfl | hm2
      · refine ⟨?_, fun hcontra => absurd hcontra (by simp),
          fun _ => ⟨List.mem_cons_self _ _, ?_⟩⟩
        · refine relocOthers_not_mem cfg fail ms _ m2 ?_ hnotcol
          simp only [List.mem_append, List.mem_filter, decide_eq_true_eq,
            List.mem_singleton]
          rintro (⟨-, hne, -⟩ | hh)
          · exact hne rfl
          · exact hcol m2 m2 (List.mem_cons_self _ _) (List.mem_cons_self _ _) hh.symm
        · refine relocOthers_mem cfg fail ms _ _ ?_ ?_
          · simp
          · intro m' hm'
            rw [(hin m' (List.mem_cons_of_mem _ hm')).2.2]
            intro hh
            exact hcol m' m2 (List.mem_cons_of_mem _ hm')
              (List.mem_cons_self _ _) hh.symm
      · have h3 := hrec.2 m2 hm2
        exact ⟨h3.1, fun hcontra => absurd hcontra (by simp),
          fun _ => ⟨List.mem_cons_of_mem _ ((h3.2.2 hdel).1), (h3.2.2 hdel).2⟩⟩

/-- The glob pattern the *spec's words* describe: the `{NAME}`
placeholder replaced by the input file's extension-stripped **base
name**, matched against the input directory.  (Stated only to compare
with the code, which substitutes `os.path.splitext(file_path)[0]`, the
extension-stripped full *path*.) -/
def specSiblingGlob (cfg : Poller) (pat file_path : String) : String :=
  joinPath cfg.input_dir (strReplace pat "{NAME}" (splitext (basename file_path)).1)

/-- Configuration whose sibling pattern does not start with the
placeholder, exposing the difference between base-name and full-path
substitution. -/
def cfgSibPre : Poller := { cfgSib with other_input_files := some ["m_{NAME}.x"] }

def wSibPre : World := ⟨["/in/a.txt", "/in/m_a.x"], []⟩

/-- **C4** is falsified as stated: with pattern `m_{NAME}.x` and input
`/in/a.txt`, the sibling `/in/m_a.x` matches the spec-described
base-name substitution, yet processing finishes without error and
leaves `/in/m_a.x` untouched — the code substituted the extension-
stripped full path, producing the non-matching glob
`/in/m_/in/a.x`. -/
theorem sibling_basename_counterexample :
    wildMatch (specSiblingGlob cfgSibPre "m_{NAME}.x" "/in/a.txt").toList
      "/in/m_a.x".toList = true ∧
    (processFiles cfgSibPre none [] ["/in/a.txt"] wSibPre false).outcomes =
      [("/in/a.txt", none)] ∧
    "/in/m_a.x" ∈ (processFiles cfgSibPre none [] ["/in/a.txt"] wSibPre false).w.files ∧
    (∀ d, Ev.renamed "/in/m_a.x" d ∉
      (processFiles cfgSibPre none [] ["/in/a.txt"] wSibPre false).evs) ∧
    Ev.removed "/in/m_a.x" ∉
      (processFiles cfgSibPre none [] ["/in/a.txt"] wSibPre false).evs := by
  refine ⟨by decide, by decide, by decide, ?_, by decide⟩
  intro d hd
  have hevs : (processFiles cfgSibPre none [] ["/in/a.txt"] wSibPre false).evs =
      [Ev.renamed "/in/a.txt" "/out/a.txt"] := by decide
  rw [hevs] at hd
  simp only [List.mem_singleton, Ev.renamed.injEq] at hd
  exact absurd hd.1 (by decide)

/-- **C4 (amended)**: processing an input file expands each configured
pattern by substituting the input file's extension-stripped *path* (for
an absolute input directory and a pattern starting with the placeholder
this coincides with matching the base-name substitution against the
input directory) and relocates or deletes every match per the
delete-sibling policy, leaving non-matching files untouched; stated for
a single configured pattern. -/
theorem sibling_expansion_semantics (cfg : Poller) (fail : List String)
    (w w1 : World) (p pat : String) (ev1 : Ev) (ms : List String)
    (hop : cfg.other_input_files = some [pat])
    (hstep : inputStep cfg fail w p = some (w1, ev1))
    (hms : ms = glob (joinPath cfg.input_dir (strReplace pat "{NAME}" (splitext p).1)) w1)
    (hnd : ms.Nodup)
    (hmok : ∀ m ∈ ms, m ∉ fail ∧ joinPath cfg.input_dir m = m)
    (hcol : ∀ m m', m ∈ ms → m' ∈ ms → joinPath cfg.output_dir (basename m') ≠ m) :
    (processOne cfg none fail w p).err = none ∧
    (∀ m ∈ ms,
      m ∉ (processOne cfg none fail w p).w.files ∧
      (cfg.delete_other_input_files = true →
        Ev.removed m ∈ (processOne cfg none fail w p).evs) ∧
      (cfg.delete_other_input_files = false →
        Ev.renamed m (joinPath cfg.output_dir (basename m)) ∈
          (processOne cfg none fail w p).evs ∧
        joinPath cfg.output_dir (basename m) ∈ (processOne cfg none fail w p).w.files)) ∧
    (∀ x ∈ w1.files, (∀ m ∈ ms, joinPath cfg.input_dir m ≠ x) →
      x ∈ (processOne cfg none fail w p).w.files) := by
  have hin : ∀ m ∈ ms, m ∈ w1.files ∧ m ∉ fail ∧ joinPath cfg.input_dir m = m := by
    intro m hm
    refine ⟨?_, (hmok m hm).1, (hmok m hm).2⟩
    rw [hms] at hm
    exact (List.mem_filter.mp hm).1
  have hrs := relocOthers_success cfg fail ms w1 hnd hin hcol
  simp only [processOne, afterInput, hstep, hop, processSiblings, ← hms, hrs.1,
    if_true, List.nil_append, List.append_nil]
  refine ⟨trivial, ?_, ?_⟩
  · intro m hm
    have h3 := hrs.2 m hm
    refine ⟨h3.1, fun hd => List.mem_cons_of_mem _ (h3.2.1 hd),
      fun hd => ⟨List.mem_cons_of_mem _ ((h3.2.2 hd).1), (h3.2.2 hd).2⟩⟩
  · intro x hx hne
    exact relocOthers_mem cfg fail ms w1 x hx hne

def wSib3 : World := ⟨["/in/a.txt", "/in/a.meta", "/in/b.meta"], []⟩

/-- Witness for the amended sibling theorem at the spec's own example:
pattern `{NAME}.meta`, input `a.txt` — `a.meta` is relocated,
`b.meta` is untouched. -/
theorem sibling_expansion_semantics_witness :
    (processOne cfgSib none [] wSib3 "/in/a.txt").err = none ∧
    Ev.renamed "/in/a.meta" "/out/a.meta" ∈
      (processOne cfgSib none [] wSib3 "/in/a.txt").evs ∧
    "/in/a.meta" ∉ (processOne cfgSib none [] wSib3 "/in/a.txt").w.files ∧
    "/out/a.meta" ∈ (processOne cfgSib none [] wSib3 "/in/a.txt").w.files ∧
    "/in/b.meta" ∈ (processOne cfgSib none [] wSib3 "/in/a.txt").w.files := by
  have h := sibling_expansion_semantics cfgSib [] wSib3
    ⟨["/in/a.meta", "/in/b.meta", "/out/a.txt"], []⟩ "/in/a.txt" "{NAME}.meta"
    (Ev.renamed "/in/a.txt" "/out/a.txt") ["/in/a.meta"]
    rfl (by decide) (by decide) (by decide) (by decide)
    (by
      intro m m' hm hm'
      simp only [List.mem_singleton] at hm hm'
      subst hm
      subst hm'
      decide)
  refine ⟨h.1, ?_, ?_, ?_, ?_⟩
  · exact ((h.2.1 "/in/a.meta" (by decide)).2.2 rfl).1
  · exact (h.2.1 "/in/a.meta" (by decide)).1
  · exact ((h.2.1 "/in/a.meta" (by decide)).2.2 rfl).2
  · exact h.2.2 "/in/b.meta" (by decide) (by decide)

/-! ### Lemmas about the blacklist dictionary -/

theorem blGet_eq_none_iff (bl : List (String × Int)) (k : String) :
    blGet bl k = none ↔ ∀ e ∈ bl, e.1 ≠ k := by
  simp [blGet, List.find?_eq_none]

theorem blGet_mem_keys {bl : List (String × Int)} {k : String} {c : Int}
    (h : blGet bl k = some c) : k ∈ bl.map Prod.fst := by
  unfold blGet at h
  cases hf : bl.find? (fun e => decide (e.1 = k)) with
  | none => rw [hf] at h; cases h
  | some e =>
    have := List.find?_some hf
    simp only [decide_eq_true_eq] at this
    exact this ▸ List.mem_map_of_mem Prod.fst (List.mem_of_find?_eq_some hf)

theorem blGet_mapIncr_other (bl : List (String × Int)) (k p : String) (c : Int)
    (h : k ≠ p) :
    blGet (bl.map (fun e => if e.1 = k then (e.1, c + 1) else e)) p = blGet bl p := by
  induction bl with
  | nil => rfl
  | cons e es ih =>
    unfold blGet at ih ⊢
    simp only [List.map_cons, List.find?]
    by_cases hep : e.1 = p
    · have hek : e.1 ≠ k := fun hh => h (hh.symm.trans hep)
      have h1 : (decide ((if e.1 = k then (e.1, c + 1) else e).1 = p)) = true := by
        rw [if_neg hek]
        simp [hep]
      rw [h1, decide_eq_true hep]
      simp [if_neg hek]
    · have h1 : (decide ((if e.1 = k then (e.1, c + 1) else e).1 = p)) = false := by
        by_cases hek : e.1 = k <;> simp [hek, hep, h]
      rw [h1, decide_eq_false hep]
      simp only [Bool.false_eq_true, if_false]
      exact ih

theorem blGet_mapIncr_self (bl : List (String × Int)) (k : String) (c : Int)
    (h : blGet bl k = some c) :
    blGet (bl.map (fun e => if e.1 = k then (e.1, c + 1) else e)) k = some (c + 1) := by
  induction bl with
  | nil => cases h
  | cons e es ih =>
    unfold blGet at h ih ⊢
    simp only [List.map_cons, List.find?] at h ⊢
    by_cases hek : e.1 = k
    · have h1 : (decide ((if e.1 = k then (e.1, c + 1) else e).1 = k)) = true := by
        simp [hek]
      rw [h1]
      rw [decide_eq_true hek] at h
      simp only [Option.map_some'] at h ⊢
      simp [if_pos hek, Option.some.inj h]
    · have h1 : (decide ((if e.1 = k then (e.1, c + 1) else e).1 = k)) = false := by
        simp [hek]
      rw [h1]
      rw [decide_eq_false hek] at h
      simp only [Bool.false_eq_true, if_false] at h ⊢
      exact ih h

theorem blGet_blIncr_other (bl : List (String × Int)) (k p : String) (h : k ≠ p) :
    blGet (blIncr bl k) p = blGet bl p := by
  unfold blIncr
  cases hg : blGet bl k with
  | none =>
    unfold blGet
    rw [List.find?_append]
    cases hf : bl.find? (fun e => decide (e.1 = p)) with
    | none => simp [List.find?, h]
    | some e => simp
  | some c => exact blGet_mapIncr_other bl k p c h

theorem blGet_blIncr_self (bl : List (String × Int)) (k : String) :
    blGet (blIncr bl k) k = some ((blGet bl k).getD 0 + 1) := by
  unfold blIncr
  cases hg : blGet bl k with
  | none =>
    have hf : bl.find? (fun e => decide (e.1 = k)) = none := by
      unfold blGet at hg
      exact Option.map_eq_none'.mp hg
    unfold blGet
    rw [List.find?_append, hf]
    simp [List.find?]
  | some c =>
    simpa using blGet_mapIncr_self bl k c hg

theorem blGet_blDel_other (bl : List (String × Int)) (k p : String) (h : k ≠ p) :
    blGet (blDel bl k) p = blGet bl p := by
  unfold blGet blDel
  induction bl with
  | nil => rfl
  | cons e es ih =>
    simp only [List.filter]
    by_cases hek : e.1 = k
    · have h1 : (decide (e.1 ≠ k)) = false := by simp [hek]
      have h2 : (decide (e.1 = p)) = false := by simp [hek, h]
      rw [h1]
      simp only [Bool.false_eq_true, if_false, List.find?, h2]
      exact ih
    · have h1 : (decide (e.1 ≠ k)) = true := by simp [hek]
      rw [h1]
      simp only [List.find?]
      cases hd : decide (e.1 = p) with
      | true => simp only [hd]
      | false =>
        simp only [hd]
        exact ih

theorem blGet_blDel_self (bl : List (String × Int)) (k : String) :
    blGet (blDel bl k) k = none := by
  rw [blGet_eq_none_iff]
  intro e he
  unfold blDel at he
  have := List.of_mem_filter he
  simpa using this

theorem blGet_none_filter (bl : List (String × Int)) (p : String)
    (f : String × Int → Bool) (h : blGet bl p = none) :
    blGet (bl.filter f) p = none := by
  rw [blGet_eq_none_iff] at h ⊢
  exact fun e he => h e (List.mem_of_mem_filter he)

theorem blGet_filter_ne (bl : List (String × Int)) (p : String) (c tries : Int)
    (h : blGet bl p = some c) (hc : c ≠ tries) :
    blGet (bl.filter (fun e => decide (e.2 ≠ tries))) p = some c := by
  unfold blGet at h ⊢
  induction bl with
  | nil => cases h
  | cons e es ih =>
    simp only [List.find?] at h
    by_cases hep : e.1 = p
    · rw [decide_eq_true hep] at h
      simp only [Option.map_some'] at h
      have hec : e.2 = c := Option.some.inj h
      have h1 : (decide (e.2 ≠ tries)) = true := by simp [hec, hc]
      simp only [List.filter, h1, List.find?, decide_eq_true hep]
      simp [hec]
    · rw [decide_eq_false hep] at h
      simp only [Bool.false_eq_true, if_false] at h
      simp only [List.filter]
      cases hf : decide (e.2 ≠ tries)
      · exact ih h
      · simp only [List.find?, decide_eq_false hep]
        exact ih h

theorem keys_unique_val (bl : List (String × Int)) (p : String) (v : Int)
    (hnd : (bl.map Prod.fst).Nodup) (h : blGet bl p = some v) :
    ∀ e ∈ bl, e.1 = p → e.2 = v := by
  unfold blGet at h
  induction bl with
  | nil => cases h
  | cons e es ih =>
    intro e2 he2 hp2
    simp only [List.map_cons, List.nodup_cons] at hnd
    simp only [List.find?] at h
    rcases List.mem_cons.mp he2 with rfl | he2
    · rw [decide_eq_true hp2] at h
      simpa using Option.some.inj h
    · have hep : e.1 ≠ p := by
        intro hh
        exact hnd.1 (hh ▸ hp2 ▸ List.mem_map_of_mem Prod.fst he2)
      rw [decide_eq_false hep] at h
      simp only [Bool.false_eq_true, if_false] at h
      exact ih hnd.2 h e2 he2 hp2

theorem blGet_expire_filter (bl : List (String × Int)) (p : String) (tries : Int)
    (hnd : (bl.map Prod.fst).Nodup) (h : blGet bl p = some tries) :
    blGet (bl.filter (fun e => decide (e.2 ≠ tries))) p = none := by
  rw [blGet_eq_none_iff]
  intro e he hep
  have h1 := List.of_mem_filter he
  have h2 := keys_unique_val bl p tries hnd h e (List.mem_of_mem_filter he) hep
  simp [h2] at h1

theorem blIncr_keys_nodup (bl : List (String × Int)) (k : String)
    (hnd : (bl.map Prod.fst).Nodup) : ((blIncr bl k).map Prod.fst).Nodup := by
  unfold blIncr
  cases hg : blGet bl k with
  | none =>
    have hk : k ∉ bl.map Prod.fst := by
      intro hmem
      rcases List.mem_map.mp hmem with ⟨e, he, hek⟩
      rw [blGet_eq_none_iff] at hg
      exact hg e he hek
    simp only [List.map_append, List.map_cons, List.map_nil]
    exact List.Nodup.append hnd (by simp) (by simp [List.disjoint_singleton, hk])
  | some c =>
    have : (bl.map (fun e => if e.1 = k then (e.1, c + 1) else e)).map Prod.fst =
        bl.map Prod.fst := by
      rw [List.map_map]
      refine List.map_congr_left ?_
      intro e _
      by_cases hek : e.1 = k <;> simp [hek]
    rw [this]
    exact hnd

theorem filter_keys_nodup (bl : List (String × Int)) (f : String × Int → Bool)
    (hnd : (bl.map Prod.fst).Nodup) : ((bl.filter f).map Prod.fst).Nodup :=
  ((List.filter_sublist bl).map Prod.fst).nodup hnd

theorem blIncr_keys_sub (bl : List (String × Int)) (k : String) :
    ∀ x ∈ (blIncr bl k).map Prod.fst, x ∈ bl.map Prod.fst ∨ x = k := by
  unfold blIncr
  cases hg : blGet bl k with
  | none =>
    intro x hx
    simp only [List.map_append, List.map_cons, List.map_nil, List.mem_append,
      List.mem_singleton] at hx
    exact hx
  | some c =>
    intro x hx
    rw [List.map_map] at hx
    rcases List.mem_map.mp hx with ⟨e, he, hex⟩
    by_cases hek : e.1 = k
    · simp only [Function.comp, hek, if_true] at hex
      exact Or.inr (hex ▸ rfl)
    · simp only [Function.comp, hek, if_false] at hex
      exact Or.inl (hex ▸ List.mem_map_of_mem Prod.fst he)

theorem expiredKeys_sub (tries : Int) (bl : List (String × Int)) :
    ∀ k ∈ expiredKeys tries bl, k ∈ bl.map Prod.fst := by
  intro k hk
  unfold expiredKeys at hk
  rcases List.mem_map.mp hk with ⟨e, he, hek⟩
  exact hek ▸ List.mem_map_of_mem Prod.fst (List.mem_of_mem_filter he)

theorem expiredKeys_not_mem (tries : Int) (bl : List (String × Int)) (p : String)
    (hnd : (bl.map Prod.fst).Nodup)
    (h : blGet bl p = none ∨ ∃ c, blGet bl p = some c ∧ c ≠ tries) :
    p ∉ expiredKeys tries bl := by
  intro hmem
  unfold expiredKeys at hmem
  rcases List.mem_map.mp hmem with ⟨e, he, hek⟩
  have h1 := List.of_mem_filter he
  simp only [decide_eq_true_eq] at h1
  rcases h with hn | ⟨c, hc, hct⟩
  · rw [blGet_eq_none_iff] at hn
    exact hn e (List.mem_of_mem_filter he) hek
  · have := keys_unique_val bl p c hnd hc e (List.mem_of_mem_filter he) hek
    exact hct (this ▸ h1)

theorem expiredKeys_mem (tries : Int) (bl : List (String × Int)) (p : String)
    (h : blGet bl p = some tries) : p ∈ expiredKeys tries bl := by
  unfold blGet at h
  unfold expiredKeys
  induction bl with
  | nil => cases h
  | cons e es ih =>
    simp only [List.find?] at h
    by_cases hep : e.1 = p
    · rw [decide_eq_true hep] at h
      simp only [Option.map_some'] at h
      have he2 : e.2 = tries := Option.some.inj h
      simp only [List.filter]
      have h2 : (decide (e.2 = tries)) = true := decide_eq_true he2
      rw [h2]
      simp [hep]
    · rw [decide_eq_false hep] at h
      simp only [Bool.false_eq_true, if_false] at h
      simp only [List.filter]
      cases hf : decide (e.2 = tries)
      · exact ih h
      · simp only [List.map_cons, List.mem_cons]
        exact Or.inr (ih h)

/-! ### Lemmas about the blacklist sweep over the filesystem -/

theorem opRemove_dirs {fail : List String} {w : World} {p : String} {w' : World}
    (h : opRemove fail w p = some w') : w'.dirs = w.dirs := by
  unfold opRemove at h
  by_cases hc : p ∈ fail ∨ p ∉ w.files
  · rw [if_pos hc] at h
    exact Option.noConfusion h
  · rw [if_neg hc] at h
    injection h with h
    rw [← h]

theorem opRename_dirs {fail : List String} {w : World} {s d : String} {w' : World}
    (h : opRename fail w s d = some w') : w'.dirs = w.dirs := by
  unfold opRename at h
  by_cases hc : s ∈ fail ∨ s ∉ w.files
  · rw [if_pos hc] at h
    exact Option.noConfusion h
  · rw [if_neg hc] at h
    injection h with h
    rw [← h]

theorem sweepOne_dirs (cfg : Poller) (fail : List String) (w : World) (k : String) :
    (sweepOne cfg fail w k).dirs = w.dirs := by
  unfold sweepOne
  cases hdel : cfg.delete_input with
  | true =>
    simp only [if_true]
    cases hr : opRemove fail w k with
    | none => rfl
    | some w' => simpa using opRemove_dirs hr
  | false =>
    simp only [Bool.false_eq_true, if_false]
    cases hr : opRename fail w k (joinPath cfg.output_dir (basename k)) with
    | none => rfl
    | some w' => simpa using opRename_dirs hr

theorem sweepOne_mem (cfg : Poller) (fail : List String) (w : World) (k x : String)
    (hx : x ∈ w.files) (hxk : x ≠ k) : x ∈ (sweepOne cfg fail w k).files := by
  unfold sweepOne
  cases hdel : cfg.delete_input with
  | true =>
    simp only [if_true]
    cases hr : opRemove fail w k with
    | none => simpa using hx
    | some w' =>
      simp only [Option.getD_some]
      rw [opRemove_mem hr]
      exact ⟨hx, hxk⟩
  | false =>
    simp only [Bool.false_eq_true, if_false]
    cases hr : opRename fail w k (joinPath cfg.output_dir (basename k)) with
    | none => simpa using hx
    | some w' =>
      simp only [Option.getD_some]
      rw [opRename_mem hr]
      by_cases hxd : x = joinPath cfg.output_dir (basename k)
      · exact Or.inr hxd
      · exact Or.inl ⟨hx, hxk, hxd⟩

theorem sweepOne_not_mem (cfg : Poller) (fail : List String) (w : World) (k x : String)
    (hx : x ∉ w.files) (hxd : joinPath cfg.output_dir (basename k) ≠ x) :
    x ∉ (sweepOne cfg fail w k).files := by
  unfold sweepOne
  cases hdel : cfg.delete_input with
  | true =>
    simp only [if_true]
    cases hr : opRemove fail w k with
    | none => simpa using hx
    | some w' =>
      simp only [Option.getD_some]
      rw [opRemove_mem hr]
      rintro ⟨hxw, -⟩
      exact hx hxw
  | false =>
    simp only [Bool.false_eq_true, if_false]
    cases hr : opRename fail w k (joinPath cfg.output_dir (basename k)) with
    | none => simpa using hx
    | some w' =>
      simp only [Option.getD_some]
      rw [opRename_mem hr]
      rintro (⟨hxw, -, -⟩ | hd)
      · exact hx hxw
      · exact hxd hd.symm

theorem sweepFs_dirs (cfg : Poller) (fail : List String) :
    ∀ (ks : List String) (w : World), (sweepFs cfg fail w ks).dirs = w.dirs := by
  intro ks
  induction ks with
  | nil => intro w; rfl
  | cons k ks ih =>
    intro w
    simp only [sweepFs, List.foldl_cons]
    rw [show (List.foldl (sweepOne cfg fail) (sweepOne cfg fail w k) ks) =
      (sweepFs cfg fail (sweepOne cfg fail w k) ks) from rfl, ih]
    exact sweepOne_dirs cfg fail w k

theorem sweepFs_mem (cfg : Poller) (fail : List String) :
    ∀ (ks : List String) (w : World) (x : String), x ∈ w.files → x ∉ ks →
      x ∈ (sweepFs cfg fail w ks).files := by
  intro ks
  induction ks with
  | nil => intro w x hx _; exact hx
  | cons k ks ih =>
    intro w x hx hks
    simp only [sweepFs, List.foldl_cons]
    exact ih _ x (sweepOne_mem cfg fail w k x hx
      (fun hh => hks (hh ▸ List.mem_cons_self _ _)))
      (fun hh => hks (List.mem_cons_of_mem _ hh))

theorem sweepFs_not_mem (cfg : Poller) (fail : List String) :
    ∀ (ks : List String) (w : World) (x : String), x ∉ w.files →
      (∀ k ∈ ks, joinPath cfg.output_dir (basename k) ≠ x) →
      x ∉ (sweepFs cfg fail w ks).files := by
  intro ks
  induction ks with
  | nil => intro w x hx _; exact hx
  | cons k ks ih =>
    intro w x hx hd
    simp only [sweepFs, List.foldl_cons]
    exact ih _ x (sweepOne_not_mem cfg fail w k x hx (hd k (List.mem_cons_self _ _)))
      (fun k' hk' => hd k' (List.mem_cons_of_mem _ hk'))

/-- The sweep deletes (or moves to the output directory) a file whose
blacklist count reached the threshold. -/
theorem sweepFs_expire (cfg : Poller) (fail : List String) :
    ∀ (ks : List String) (w : World) (p : String), p ∈ ks → p ∈ w.files →
      p ∉ fail →
      (∀ k ∈ ks, joinPath cfg.output_dir (basename k) ≠ p) →
      (∀ k ∈ ks, k ≠ joinPath cfg.output_dir (basename p)) →
      p ∉ (sweepFs cfg fail w ks).files ∧
      (cfg.delete_input = false →
        joinPath cfg.output_dir (basename p) ∈ (sweepFs cfg fail w ks).files) := by
  intro ks
  induction ks with
  | nil => intro w p hp _ _ _ _; cases hp
  | cons k ks ih =>
    intro w p hp hpw hpf hd htgt
    by_cases hkp : k = p
    · simp only [sweepFs, List.foldl_cons]
      rw [hkp]
      have hptgt : p ≠ joinPath cfg.output_dir (basename p) :=
        htgt p (hkp ▸ List.mem_cons_self k ks)
      have hout : p ∉ (sweepOne cfg fail w p).files ∧
          (cfg.delete_input = false →
            joinPath cfg.output_dir (basename p) ∈ (sweepOne cfg fail w p).files) := by
        unfold sweepOne
        cases hdel : cfg.delete_input with
        | true =>
          simp only [if_true]
          rw [opRemove_some hpw hpf]
          simp only [Option.getD_some]
          constructor
          · simp [List.mem_filter]
          · intro hcontra
            exact absurd hcontra (by simp)
        | false =>
          simp only [Bool.false_eq_true, if_false]
          rw [opRename_some hpw hpf]
          simp only [Option.getD_some]
          constructor
          · simp only [List.mem_append, List.mem_filter, decide_eq_true_eq,
              List.mem_singleton]
            rintro (⟨-, hne, -⟩ | hh)
            · exact hne rfl
            · exact hptgt hh
          · intro _
            simp
      refine ⟨?_, ?_⟩
      · exact sweepFs_not_mem cfg fail ks _ p hout.1
          (fun k' hk' => hd k' (List.mem_cons_of_mem _ hk'))
      · intro hdel
        exact sweepFs_mem cfg fail ks _ _ (hout.2 hdel)
          (fun hh => htgt _ (List.mem_cons_of_mem _ hh) rfl)
    · have hp2 : p ∈ ks := by
        rcases List.mem_cons.mp hp with h1 | h1
        · exact absurd h1.symm hkp
        · exact h1
      simp only [sweepFs, List.foldl_cons]
      refine ih _ p hp2 ?_ hpf (fun k' hk' => hd k' (List.mem_cons_of_mem _ hk'))
        (fun k' hk' => htgt k' (List.mem_cons_of_mem _ hk'))
      exact sweepOne_mem cfg fail w k p hpw (fun hh => hkp hh.symm)

/-! ### Invariants threaded through one `list_files` enumeration -/

/-- Blacklist keys are distinct (true of every reachable state since the
blacklist models a Python `dict`). -/
def KeysND (bl : List (String × Int)) : Prop := (bl.map Prod.fst).Nodup

/-- No blacklist key re-creates the tracked path `p` when swept to the
output directory, and none coincides with `p`'s own sweep target
`tgt`. -/
def KeysOk (cfg : Poller) (p tgt : String) (bl : List (String × Int)) : Prop :=
  ∀ k ∈ bl.map Prod.fst, joinPath cfg.output_dir (basename k) ≠ p ∧ k ≠ tgt

/-- A directory entry other than the tracked file: its path, its sweep
target and `p`'s sweep target are pairwise distinct from `p`'s data. -/
def EntryOk (cfg : Poller) (p tgt : String) (n : String) : Prop :=
  joinPath cfg.input_dir n ≠ p ∧
  joinPath cfg.output_dir (basename (joinPath cfg.input_dir n)) ≠ p ∧
  joinPath cfg.input_dir n ≠ tgt

theorem blDel_keys_sub (bl : List (String × Int)) (k : String) :
    ∀ x ∈ (blDel bl k).map Prod.fst, x ∈ bl.map Prod.fst := by
  intro x hx
  rcases List.mem_map.mp hx with ⟨e, he, hex⟩
  exact hex ▸ List.mem_map_of_mem Prod.fst (List.mem_of_mem_filter he)

theorem filter_keys_sub (bl : List (String × Int)) (f : String × Int → Bool) :
    ∀ x ∈ (bl.filter f).map Prod.fst, x ∈ bl.map Prod.fst := by
  intro x hx
  rcases List.mem_map.mp hx with ⟨e, he, hex⟩
  exact hex ▸ List.mem_map_of_mem Prod.fst (List.mem_of_mem_filter he)

theorem applyCheck_facts (cfg : Poller) (chk : String → Bool × Bool)
    (st : LState) (fp p tgt : String)
    (hnostop : ∀ q, (chk q).2 = false)
    (hfp : fp ≠ p)
    (hdst : joinPath cfg.output_dir (basename fp) ≠ p)
    (htgtne : fp ≠ tgt)
    (hnd : KeysND st.bl) (hk : KeysOk cfg p tgt st.bl) :
    KeysND (applyCheck (some chk) st fp).bl ∧
    KeysOk cfg p tgt (applyCheck (some chk) st fp).bl ∧
    blGet (applyCheck (some chk) st fp).bl p = blGet st.bl p ∧
    (applyCheck (some chk) st fp).stopped = st.stopped ∧
    (applyCheck (some chk) st fp).w = st.w ∧
    (∀ x ∈ st.acc, x ∈ (applyCheck (some chk) st fp).acc) := by
  unfold applyCheck
  simp only []
  by_cases hchk : (chk fp).1 = true
  · rw [if_pos hchk]
    refine ⟨filter_keys_nodup _ _ hnd, ?_, blGet_blDel_other _ _ _ hfp,
      by simp [hnostop fp], rfl, ?_⟩
    · intro k hkmem
      exact hk k (blDel_keys_sub st.bl fp k hkmem)
    · intro x hx
      simp [hx]
  · rw [if_neg hchk]
    refine ⟨blIncr_keys_nodup _ _ hnd, ?_, blGet_blIncr_other _ _ _ hfp,
      by simp [hnostop fp], rfl, fun x hx => hx⟩
    intro k hkmem
    rcases blIncr_keys_sub st.bl fp k hkmem with hmem | rfl
    · exact hk k hmem
    · exact ⟨hdst, htgtne⟩

/-- The sweep-and-prune tail of one loop body, for a state whose tracked
path is not expired. -/
theorem sweepPhase_facts (cfg : Poller) (fail : List String) (st1 : LState)
    (p tgt : String)
    (hnd : KeysND st1.bl) (hk : KeysOk cfg p tgt st1.bl)
    (hPOk : blGet st1.bl p = none ∨
      ∃ c, blGet st1.bl p = some c ∧ c ≠ cfg.blacklist_tries) :
    KeysND (st1.bl.filter (fun e => decide (e.2 ≠ cfg.blacklist_tries))) ∧
    KeysOk cfg p tgt (st1.bl.filter (fun e => decide (e.2 ≠ cfg.blacklist_tries))) ∧
    blGet (st1.bl.filter (fun e => decide (e.2 ≠ cfg.blacklist_tries))) p =
      blGet st1.bl p ∧
    (sweepFs cfg fail st1.w (expiredKeys cfg.blacklist_tries st1.bl)).dirs =
      st1.w.dirs ∧
    (p ∈ st1.w.files →
      p ∈ (sweepFs cfg fail st1.w (expiredKeys cfg.blacklist_tries st1.bl)).files) ∧
    (p ∉ st1.w.files →
      p ∉ (sweepFs cfg fail st1.w (expiredKeys cfg.blacklist_tries st1.bl)).files) ∧
    (tgt ∈ st1.w.files →
      tgt ∈ (sweepFs cfg fail st1.w (expiredKeys cfg.blacklist_tries st1.bl)).files) := by
  have hexp : ∀ k ∈ expiredKeys cfg.blacklist_tries st1.bl,
      joinPath cfg.output_dir (basename k) ≠ p ∧ k ≠ tgt :=
    fun k hkm => hk k (expiredKeys_sub _ _ k hkm)
  have hpnot : p ∉ expiredKeys cfg.blacklist_tries st1.bl :=
    expiredKeys_not_mem _ _ _ hnd hPOk
  have htgtnot : tgt ∉ expiredKeys cfg.blacklist_tries st1.bl :=
    fun hmem => (hexp tgt hmem).2 rfl
  refine ⟨filter_keys_nodup _ _ hnd,
    fun k hkm => hk k (filter_keys_sub _ _ k hkm), ?_,
    sweepFs_dirs cfg fail _ _, ?_, ?_, ?_⟩
  · rcases hPOk with hn | ⟨c, hc, hct⟩
    · rw [hn]
      exact blGet_none_filter _ _ _ hn
    · rw [hc]
      exact blGet_filter_ne _ _ _ _ hc hct
  · intro hp
    exact sweepFs_mem cfg fail _ _ p hp hpnot
  · intro hp
    exact sweepFs_not_mem cfg fail _ _ p hp (fun k hkm => (hexp k hkm).1)
  · intro ht
    exact sweepFs_mem cfg fail _ _ tgt ht htgtnot

/-- One loop body for an entry other than the tracked file preserves the
invariants, the tracked blacklist value, and the tracked memberships. -/
theorem listStep_other (cfg : Poller) (fail : List String)
    (chk : String → Bool × Bool) (st : LState) (n p tgt : String)
    (hnostop : ∀ q, (chk q).2 = false)
    (hEn : EntryOk cfg p tgt n)
    (hnd : KeysND st.bl) (hk : KeysOk cfg p tgt st.bl)
    (hPOk : blGet st.bl p = none ∨
      ∃ c, blGet st.bl p = some c ∧ c ≠ cfg.blacklist_tries) :
    KeysND (listStep cfg fail (some chk) st n).bl ∧
    KeysOk cfg p tgt (listStep cfg fail (some chk) st n).bl ∧
    blGet (listStep cfg fail (some chk) st n).bl p = blGet st.bl p ∧
    (listStep cfg fail (some chk) st n).stopped = st.stopped ∧
    (listStep cfg fail (some chk) st n).w.dirs = st.w.dirs ∧
    (p ∈ st.w.files → p ∈ (listStep cfg fail (some chk) st n).w.files) ∧
    (p ∉ st.w.files → p ∉ (listStep cfg fail (some chk) st n).w.files) ∧
    (tgt ∈ st.w.files → tgt ∈ (listStep cfg fail (some chk) st n).w.files) ∧
    (∀ x ∈ st.acc, x ∈ (listStep cfg fail (some chk) st n).acc) := by
  unfold listStep
  by_cases hdir : joinPath cfg.input_dir n ∈ st.w.dirs
  · rw [if_pos hdir]
    exact ⟨hnd, hk, rfl, rfl, rfl, id, id, id, fun x hx => hx⟩
  · rw [if_neg hdir]
    by_cases hext : extOk cfg n = true
    · rw [if_neg (not_not_intro hext)]
      have hA := applyCheck_facts cfg chk st (joinPath cfg.input_dir n) p tgt
        hnostop hEn.1 hEn.2.1 hEn.2.2 hnd hk
      have hS := sweepPhase_facts cfg fail
        (applyCheck (some chk) st (joinPath cfg.input_dir n)) p tgt hA.1 hA.2.1
        (by rw [hA.2.2.1]; exact hPOk)
      refine ⟨hS.1, hS.2.1, hS.2.2.1.trans hA.2.2.1, hA.2.2.2.1,
        (sweepFs_dirs cfg fail _ _).trans (congrArg World.dirs hA.2.2.2.2.1),
        ?_, ?_, ?_, hA.2.2.2.2.2⟩
      · intro hp
        exact hS.2.2.2.2.1 (hA.2.2.2.2.1.symm ▸ hp)
      · intro hp
        exact hS.2.2.2.2.2.1 (hA.2.2.2.2.1.symm ▸ hp)
      · intro ht
        exact hS.2.2.2.2.2.2 (hA.2.2.2.2.1.symm ▸ ht)
    · rw [if_pos hext]
      exact ⟨hnd, hk, rfl, rfl, rfl, id, id, id, fun x hx => hx⟩

/-- One loop body at the tracked file when the validator fails it:
the strike count goes from `c0` to `c0 + 1`; if that reaches the
threshold the file is swept out of the input directory (deleted, or
moved to `tgt` in the output directory) and leaves the blacklist,
otherwise it stays put with the bumped count. -/
theorem listStep_fail_p (cfg : Poller) (fail : List String)
    (chk : String → Bool × Bool) (st : LState) (nm p tgt : String) (c0 : Int)
    (hnostop : ∀ q, (chk q).2 = false)
    (hnm : joinPath cfg.input_dir nm = p)
    (hdir : p ∉ st.w.dirs)
    (hext : extOk cfg nm = true)
    (hchk : (chk p).1 = false)
    (hptgt : p ≠ tgt)
    (htgt : joinPath cfg.output_dir (basename p) = tgt)
    (hnd : KeysND st.bl) (hk : KeysOk cfg p tgt st.bl)
    (hc : blGet st.bl p = none ∧ c0 = 0 ∨ blGet st.bl p = some c0)
    (hpw : p ∈ st.w.files) (hpf : p ∉ fail) :
    KeysND (listStep cfg fail (some chk) st nm).bl ∧
    KeysOk cfg p tgt (listStep cfg fail (some chk) st nm).bl ∧
    (listStep cfg fail (some chk) st nm).stopped = st.stopped ∧
    (listStep cfg fail (some chk) st nm).w.dirs = st.w.dirs ∧
    (∀ x ∈ st.acc, x ∈ (listStep cfg fail (some chk) st nm).acc) ∧
    (c0 + 1 ≠ cfg.blacklist_tries →
      blGet (listStep cfg fail (some chk) st nm).bl p = some (c0 + 1) ∧
      p ∈ (listStep cfg fail (some chk) st nm).w.files) ∧
    (c0 + 1 = cfg.blacklist_tries →
      blGet (listStep cfg fail (some chk) st nm).bl p = none ∧
      p ∉ (listStep cfg fail (some chk) st nm).w.files ∧
      (cfg.delete_input = false →
        tgt ∈ (listStep cfg fail (some chk) st nm).w.files)) := by
  unfold listStep
  rw [hnm, if_neg hdir, if_neg (not_not_intro hext)]
  have happ : applyCheck (some chk) st p = { st with bl := blIncr st.bl p } := by
    unfold applyCheck
    simp only []
    rw [if_neg (by simp [hchk])]
    simp [hnostop p]
  rw [happ]
  simp only []
  have hb1 : blGet (blIncr st.bl p) p = some (c0 + 1) := by
    rw [blGet_blIncr_self]
    rcases hc with ⟨hn, h0⟩ | hs
    · rw [hn, h0]
      rfl
    · rw [hs]
      rfl
  have hnd1 : KeysND (blIncr st.bl p) := blIncr_keys_nodup st.bl p hnd
  have hk1 : KeysOk cfg p tgt (blIncr st.bl p) := by
    intro k hkm
    rcases blIncr_keys_sub st.bl p k hkm with hmem | rfl
    · exact hk k hmem
    · exact ⟨fun hh => hptgt (htgt ▸ hh).symm, hptgt⟩
  refine ⟨filter_keys_nodup _ _ hnd1,
    fun k hkm => hk1 k (filter_keys_sub _ _ k hkm), trivial,
    sweepFs_dirs cfg fail _ _, fun x hx => hx, ?_, ?_⟩
  · intro hne
    have hS := sweepPhase_facts cfg fail
      { st with bl := blIncr st.bl p } p tgt
      hnd1 hk1 (Or.inr ⟨c0 + 1, hb1, hne⟩)
    exact ⟨hS.2.2.1.trans hb1, hS.2.2.2.2.1 hpw⟩
  · intro heq
    have hbt : blGet (blIncr st.bl p) p = some cfg.blacklist_tries := heq ▸ hb1
    have hpks : p ∈ expiredKeys cfg.blacklist_tries (blIncr st.bl p) :=
      expiredKeys_mem _ _ _ hbt
    have hkd : ∀ k ∈ expiredKeys cfg.blacklist_tries (blIncr st.bl p),
        joinPath cfg.output_dir (basename k) ≠ p ∧ k ≠ tgt :=
      fun k hkm => hk1 k (expiredKeys_sub _ _ k hkm)
    have hsw := sweepFs_expire cfg fail
      (expiredKeys cfg.blacklist_tries (blIncr st.bl p)) st.w p hpks hpw hpf
      (fun k hkm => (hkd k hkm).1) (fun k hkm => htgt ▸ (hkd k hkm).2)
    refine ⟨blGet_expire_filter _ _ _ hnd1 hbt, hsw.1, ?_⟩
    intro hdel
    exact htgt ▸ hsw.2 hdel

/-- One loop body at the tracked file when the validator passes it:
the blacklist entry is dropped on the spot, the file joins the result
list and stays in the input directory. -/
theorem listStep_pass_p (cfg : Poller) (fail : List String)
    (chk : String → Bool × Bool) (st : LState) (nm p tgt : String)
    (hnostop : ∀ q, (chk q).2 = false)
    (hnm : joinPath cfg.input_dir nm = p)
    (hdir : p ∉ st.w.dirs)
    (hext : extOk cfg nm = true)
    (hchk : (chk p).1 = true)
    (hnd : KeysND st.bl) (hk : KeysOk cfg p tgt st.bl) :
    KeysND (listStep cfg fail (some chk) st nm).bl ∧
    KeysOk cfg p tgt (listStep cfg fail (some chk) st nm).bl ∧
    blGet (listStep cfg fail (some chk) st nm).bl p = none ∧
    (listStep cfg fail (some chk) st nm).stopped = st.stopped ∧
    (listStep cfg fail (some chk) st nm).w.dirs = st.w.dirs ∧
    p ∈ (listStep cfg fail (some chk) st nm).acc ∧
    (p ∈ st.w.files → p ∈ (listStep cfg fail (some chk) st nm).w.files) := by
  unfold listStep
  rw [hnm, if_neg hdir, if_neg (not_not_intro hext)]
  have happ : applyCheck (some chk) st p =
      { st with bl := blDel st.bl p, acc := st.acc ++ [p] } := by
    unfold applyCheck
    simp only []
    rw [if_pos hchk]
    simp [hnostop p]
  rw [happ]
  simp only []
  have hb1 : blGet (blDel st.bl p) p = none := blGet_blDel_self st.bl p
  have hnd1 : KeysND (blDel st.bl p) := filter_keys_nodup _ _ hnd
  have hk1 : KeysOk cfg p tgt (blDel st.bl p) :=
    fun k hkm => hk k (blDel_keys_sub st.bl p k hkm)
  have hS := sweepPhase_facts cfg fail
    { st with bl := blDel st.bl p, acc := st.acc ++ [p] } p tgt hnd1 hk1
    (Or.inl hb1)
  refine ⟨hS.1, hS.2.1, hS.2.2.1.trans hb1, trivial,
    sweepFs_dirs cfg fail _ _, by simp, ?_⟩
  intro hp
  exact hS.2.2.2.2.1 hp

/-- With a callback that never requests a stop, one loop body leaves the
stop flag unchanged. -/
theorem listStep_stopped (cfg : Poller) (fail : List String)
    (chk : String → Bool × Bool) (st : LState) (n : String)
    (hnostop : ∀ q, (chk q).2 = false) :
    (listStep cfg fail (some chk) st n).stopped = st.stopped := by
  unfold listStep
  by_cases hdir : joinPath cfg.input_dir n ∈ st.w.dirs
  · rw [if_pos hdir]
  · rw [if_neg hdir]
    by_cases hext : extOk cfg n = true
    · rw [if_neg (not_not_intro hext)]
      unfold applyCheck
      simp only []
      by_cases hchk : (chk (joinPath cfg.input_dir n)).1 = true
      · rw [if_pos hchk]
        simp [hnostop]
      · rw [if_neg hchk]
        simp [hnostop]
    · rw [if_pos hext]

/-- With no cap (`max_files ≤ 0`) and a non-stopping callback, the
enumeration loop runs to completion and is the left fold of the loop
body. -/
theorem listLoop_eq_foldl (cfg : Poller) (fail : List String)
    (chk : String → Bool × Bool)
    (hmax : cfg.max_files ≤ 0) (hnostop : ∀ q, (chk q).2 = false) :
    ∀ (ns : List String) (st : LState), st.stopped = false →
      listLoop cfg fail (some chk) ns st =
        .done (ns.foldl (listStep cfg fail (some chk)) st) := by
  intro ns
  induction ns with
  | nil => intro st _; rfl
  | cons n ns ih =>
    intro st hst
    simp only [listLoop, List.foldl_cons]
    rw [if_neg (by simp [hst]), if_neg (fun hcap => absurd hcap.1 (by omega))]
    exact ih _ ((listStep_stopped cfg fail chk st n hnostop).trans hst)

/-- Entries other than the tracked file, folded: all invariants and
tracked facts are preserved. -/
theorem foldl_other (cfg : Poller) (fail : List String)
    (chk : String → Bool × Bool) (p tgt : String)
    (hnostop : ∀ q, (chk q).2 = false) :
    ∀ (ns : List String) (st : LState),
      (∀ n ∈ ns, EntryOk cfg p tgt n) →
      KeysND st.bl → KeysOk cfg p tgt st.bl →
      (blGet st.bl p = none ∨
        ∃ c, blGet st.bl p = some c ∧ c ≠ cfg.blacklist_tries) →
      KeysND (ns.foldl (listStep cfg fail (some chk)) st).bl ∧
      KeysOk cfg p tgt (ns.foldl (listStep cfg fail (some chk)) st).bl ∧
      blGet (ns.foldl (listStep cfg fail (some chk)) st).bl p = blGet st.bl p ∧
      (ns.foldl (listStep cfg fail (some chk)) st).stopped = st.stopped ∧
      (ns.foldl (listStep cfg fail (some chk)) st).w.dirs = st.w.dirs ∧
      (p ∈ st.w.files → p ∈ (ns.foldl (listStep cfg fail (some chk)) st).w.files) ∧
      (p ∉ st.w.files → p ∉ (ns.foldl (listStep cfg fail (some chk)) st).w.files) ∧
      (tgt ∈ st.w.files →
        tgt ∈ (ns.foldl (listStep cfg fail (some chk)) st).w.files) ∧
      (∀ x ∈ st.acc, x ∈ (ns.foldl (listStep cfg fail (some chk)) st).acc) := by
  intro ns
  induction ns with
  | nil =>
    intro st _ hnd hk hPOk
    exact ⟨hnd, hk, rfl, rfl, rfl, id, id, id, fun x hx => hx⟩
  | cons n ns ih =>
    intro st hEn hnd hk hPOk
    simp only [List.foldl_cons]
    have h1 := listStep_other cfg fail chk st n p tgt hnostop
      (hEn n (List.mem_cons_self _ _)) hnd hk hPOk
    have h2 := ih (listStep cfg fail (some chk) st n)
      (fun n' hn' => hEn n' (List.mem_cons_of_mem _ hn'))
      h1.1 h1.2.1 (by rw [h1.2.2.1]; exact hPOk)
    refine ⟨h2.1, h2.2.1, h2.2.2.1.trans h1.2.2.1,
      h2.2.2.2.1.trans h1.2.2.2.1,
      h2.2.2.2.2.1.trans h1.2.2.2.2.1, ?_, ?_, ?_, ?_⟩
    · intro hp
      exact h2.2.2.2.2.2.1 (h1.2.2.2.2.2.1 hp)
    · intro hp
      exact h2.2.2.2.2.2.2.1 (h1.2.2.2.2.2.2.1 hp)
    · intro ht
      exact h2.2.2.2.2.2.2.2.1 (h1.2.2.2.2.2.2.2.1 ht)
    · intro x hx
      exact h2.2.2.2.2.2.2.2.2 x (h1.2.2.2.2.2.2.2.2 x hx)

/-- A loop body for an entry whose path differs from `p` never creates a
blacklist entry for `p` (any callback, cancellation allowed). -/
theorem listStep_blGet_none (cfg : Poller) (fail : List String)
    (check : Option (String → Bool × Bool)) (st : LState) (n p : String)
    (hne : joinPath cfg.input_dir n ≠ p)
    (hno : blGet st.bl p = none) :
    blGet (listStep cfg fail check st n).bl p = none := by
  unfold listStep
  by_cases hdir : joinPath cfg.input_dir n ∈ st.w.dirs
  · rw [if_pos hdir]
    exact hno
  · rw [if_neg hdir]
    by_cases hext : extOk cfg n = true
    · rw [if_neg (not_not_intro hext)]
      refine blGet_none_filter _ _ _ ?_
      unfold applyCheck
      cases check with
      | none => exact hno
      | some f =>
        simp only []
        by_cases hchk : (f (joinPath cfg.input_dir n)).1 = true
        · rw [if_pos hchk]
          exact (blGet_blDel_other _ _ _ hne).trans hno
        · rw [if_neg hchk]
          exact (blGet_blIncr_other _ _ _ hne).trans hno
    · rw [if_pos hext]
      exact hno

theorem listLoop_blGet_none (cfg : Poller) (fail : List String)
    (check : Option (String → Bool × Bool)) (p : String) :
    ∀ (ns : List String) (st st' : LState),
      (∀ n ∈ ns, joinPath cfg.input_dir n ≠ p) →
      blGet st.bl p = none →
      (listLoop cfg fail check ns st = .done st' ∨
        listLoop cfg fail check ns st = .cancelled st') →
      blGet st'.bl p = none := by
  intro ns
  induction ns with
  | nil =>
    intro st st' _ hno hres
    rcases hres with hres | hres
    · cases hres
      exact hno
    · cases hres
  | cons n ns ih =>
    intro st st' hne hno hres
    simp only [listLoop] at hres
    by_cases hst : st.stopped = true
    · rw [if_pos hst] at hres
      rcases hres with hres | hres
      · cases hres
      · cases hres
        exact hno
    · rw [if_neg hst] at hres
      have hstep := listStep_blGet_none cfg fail check st n p
        (hne n (List.mem_cons_self _ _)) hno
      by_cases hcap : cfg.max_files > 0 ∧
          (((listStep cfg fail check st n).acc.length : Int) = cfg.max_files)
      · rw [if_pos hcap] at hres
        rcases hres with hres | hres
        · cases hres
          exact hstep
        · cases hres
      · rw [if_neg hcap] at hres
        exact ih _ st' (fun n' hn' => hne n' (List.mem_cons_of_mem _ hn'))
          hstep hres

/-- `list_files` never creates a blacklist entry for a path that is
absent from the directory snapshot. -/
theorem listFiles_blGet_none (cfg : Poller) (fail : List String)
    (check : Option (String → Bool × Bool)) (w : World)
    (bl : List (String × Int)) (s : Bool) (p : String)
    (hno : blGet bl p = none)
    (hns : ∀ n ∈ listdir cfg.input_dir w, joinPath cfg.input_dir n ≠ p) :
    blGet (listFiles cfg fail check w bl s).bl p = none := by
  unfold listFiles
  by_cases hs : s = true
  · rw [if_pos hs]
    exact hno
  · rw [if_neg hs]
    cases hres : listLoop cfg fail check (listdir cfg.input_dir w) ⟨w, bl, [], s⟩ with
    | done st' =>
      simp only []
      exact listLoop_blGet_none cfg fail check p _ _ st' hns hno (Or.inl hres)
    | cancelled st' =>
      simp only []
      exact listLoop_blGet_none cfg fail check p _ _ st' hns hno (Or.inr hres)

/-- **C1**: a file that keeps failing validation accumulates one strike
per `list_files` cycle; the cycle of the final failure (count reaching
`blacklist_tries`) removes it from the input directory — deleted under
`delete_input`, otherwise moved to the output directory — and deletes its
blacklist entry; afterwards no cycle whose snapshot lacks the file ever
re-creates an entry for it. -/
theorem blacklist_expiry_removal (cfg : Poller) (fail : List String)
    (chk : String → Bool × Bool) (w : World) (bl : List (String × Int))
    (p nm tgt : String) (ns1 ns2 : List String) (c0 : Int)
    (htgt : joinPath cfg.output_dir (basename p) = tgt)
    (hptgt : p ≠ tgt)
    (hmax : cfg.max_files ≤ 0)
    (hnostop : ∀ q, (chk q).2 = false)
    (hchkp : (chk p).1 = false)
    (hsnap : listdir cfg.input_dir w = ns1 ++ nm :: ns2)
    (hnm : joinPath cfg.input_dir nm = p)
    (hdirp : p ∉ w.dirs)
    (hext : extOk cfg nm = true)
    (hothers : ∀ n ∈ ns1 ++ ns2, EntryOk cfg p tgt n)
    (hnd : KeysND bl) (hk : KeysOk cfg p tgt bl)
    (hc : blGet bl p = none ∧ c0 = 0 ∨ blGet bl p = some c0)
    (hc0 : c0 ≠ cfg.blacklist_tries)
    (hpw : p ∈ w.files) (hpf : p ∉ fail) :
    ((listFiles cfg fail (some chk) w bl false).res ≠ none) ∧
    (c0 + 1 ≠ cfg.blacklist_tries →
      blGet (listFiles cfg fail (some chk) w bl false).bl p = some (c0 + 1) ∧
      p ∈ (listFiles cfg fail (some chk) w bl false).w.files) ∧
    (c0 + 1 = cfg.blacklist_tries →
      blGet (listFiles cfg fail (some chk) w bl false).bl p = none ∧
      p ∉ (listFiles cfg fail (some chk) w bl false).w.files ∧
      (cfg.delete_input = false →
        tgt ∈ (listFiles cfg fail (some chk) w bl false).w.files)) ∧
    (∀ (w2 : World) (bl2 : List (String × Int))
        (check2 : Option (String → Bool × Bool)) (s2 : Bool),
      blGet bl2 p = none →
      (∀ n ∈ listdir cfg.input_dir w2, joinPath cfg.input_dir n ≠ p) →
      blGet (listFiles cfg fail check2 w2 bl2 s2).bl p = none) := by
  have hPOk0 : blGet bl p = none ∨
      ∃ c, blGet bl p = some c ∧ c ≠ cfg.blacklist_tries := by
    rcases hc with ⟨hn, -⟩ | hs
    · exact Or.inl hn
    · exact Or.inr ⟨c0, hs, hc0⟩
  have h1 := foldl_other cfg fail chk p tgt hnostop ns1 ⟨w, bl, [], false⟩
    (fun n hn => hothers n (List.mem_append_left _ hn)) hnd hk hPOk0
  have hc1 : blGet (ns1.foldl (listStep cfg fail (some chk)) ⟨w, bl, [], false⟩).bl p
      = none ∧ c0 = 0 ∨
      blGet (ns1.foldl (listStep cfg fail (some chk)) ⟨w, bl, [], false⟩).bl p
      = some c0 := by
    rcases hc with ⟨hn, h0⟩ | hs
    · exact Or.inl ⟨h1.2.2.1.trans hn, h0⟩
    · exact Or.inr (h1.2.2.1.trans hs)
  have hstep := listStep_fail_p cfg fail chk
    (ns1.foldl (listStep cfg fail (some chk)) ⟨w, bl, [], false⟩) nm p tgt c0
    hnostop hnm (fun hmem => hdirp (h1.2.2.2.2.1 ▸ hmem)) hext hchkp hptgt htgt
    h1.1 h1.2.1 hc1 (h1.2.2.2.2.2.1 hpw) hpf
  have hfoldeq : (ns1 ++ nm :: ns2).foldl (listStep cfg fail (some chk))
      ⟨w, bl, [], false⟩ =
      ns2.foldl (listStep cfg fail (some chk))
        (listStep cfg fail (some chk)
          (ns1.foldl (listStep cfg fail (some chk)) ⟨w, bl, [], false⟩) nm) := by
    rw [List.foldl_append, List.foldl_cons]
  have hout : listFiles cfg fail (some chk) w bl false =
      ⟨some ((ns1 ++ nm :: ns2).foldl (listStep cfg fail (some chk))
          ⟨w, bl, [], false⟩).acc,
        ((ns1 ++ nm :: ns2).foldl (listStep cfg fail (some chk))
          ⟨w, bl, [], false⟩).w,
        ((ns1 ++ nm :: ns2).foldl (listStep cfg fail (some chk))
          ⟨w, bl, [], false⟩).bl,
        ((ns1 ++ nm :: ns2).foldl (listStep cfg fail (some chk))
          ⟨w, bl, [], false⟩).stopped⟩ := by
    unfold listFiles
    rw [if_neg (by simp), hsnap,
      listLoop_eq_foldl cfg fail chk hmax hnostop _ _ rfl]
  refine ⟨by rw [hout]; simp, ?_, ?_, ?_⟩
  · intro hne
    have hpost := hstep.2.2.2.2.2.1 hne
    have h3 := foldl_other cfg fail chk p tgt hnostop ns2 _
      (fun n hn => hothers n (List.mem_append_right _ hn)) hstep.1 hstep.2.1
      (Or.inr ⟨c0 + 1, hpost.1, hne⟩)
    rw [hout]
    simp only []
    rw [hfoldeq]
    exact ⟨h3.2.2.1.trans hpost.1, h3.2.2.2.2.2.1 hpost.2⟩
  · intro heq
    have hpost := hstep.2.2.2.2.2.2 heq
    have h3 := foldl_other cfg fail chk p tgt hnostop ns2 _
      (fun n hn => hothers n (List.mem_append_right _ hn)) hstep.1 hstep.2.1
      (Or.inl hpost.1)
    rw [hout]
    simp only []
    rw [hfoldeq]
    refine ⟨h3.2.2.1.trans hpost.1, h3.2.2.2.2.2.2.1 hpost.2.1, ?_⟩
    intro hdel
    exact h3.2.2.2.2.2.2.2.1 (hpost.2.2 hdel)
  · intro w2 bl2 check2 s2 hno hns
    exact listFiles_blGet_none cfg fail check2 w2 bl2 s2 p hno hns

/-- Concrete blacklist scenario: threshold 3, relocate-don't-delete. -/
def cfgBlk : Poller :=
  { input_dir := "/in", output_dir := "/out", tmp_dir := none,
    delete_input := false, continuous := false, max_files := -1,
    extensions := none, other_input_files := none,
    delete_other_input_files := false, blacklist_tries := 3 }

def chkFail : String → Bool × Bool := fun _ => (false, false)

def wBlk : World := ⟨["/in/a.txt", "/in/b.txt"], []⟩

/-- Witness for the expiry theorem: at strike count 2 the third failure
moves `a.txt` to the output directory and clears the ledger; at strike
count 1 the second failure just bumps the count and leaves the file; an
empty ledger stays empty over a cycle without the file. -/
theorem blacklist_expiry_removal_witness :
    (blGet (listFiles cfgBlk [] (some chkFail) wBlk [("/in/a.txt", 2)] false).bl
        "/in/a.txt" = none ∧
      "/in/a.txt" ∉
        (listFiles cfgBlk [] (some chkFail) wBlk [("/in/a.txt", 2)] false).w.files ∧
      "/out/a.txt" ∈
        (listFiles cfgBlk [] (some chkFail) wBlk [("/in/a.txt", 2)] false).w.files) ∧
    (blGet (listFiles cfgBlk [] (some chkFail) wBlk [("/in/a.txt", 1)] false).bl
        "/in/a.txt" = some 2 ∧
      "/in/a.txt" ∈
        (listFiles cfgBlk [] (some chkFail) wBlk [("/in/a.txt", 1)] false).w.files) ∧
    blGet (listFiles cfgBlk [] none ⟨["/in/b.txt"], []⟩ [] false).bl
      "/in/a.txt" = none := by
  have hothers : ∀ n ∈ ([] ++ ["b.txt"] : List String),
      EntryOk cfgBlk "/in/a.txt" "/out/a.txt" n := by
    intro n hn
    simp only [List.nil_append, List.mem_singleton] at hn
    subst hn
    exact ⟨by decide, by decide, by decide⟩
  have hk2 : KeysOk cfgBlk "/in/a.txt" "/out/a.txt" [("/in/a.txt", 2)] := by
    intro k hkm
    simp only [List.map_cons, List.map_nil, List.mem_singleton] at hkm
    subst hkm
    exact ⟨by decide, by decide⟩
  have hk1 : KeysOk cfgBlk "/in/a.txt" "/out/a.txt" [("/in/a.txt", 1)] := by
    intro k hkm
    simp only [List.map_cons, List.map_nil, List.mem_singleton] at hkm
    subst hkm
    exact ⟨by decide, by decide⟩
  have h1 := blacklist_expiry_removal cfgBlk [] chkFail wBlk [("/in/a.txt", 2)]
    "/in/a.txt" "a.txt" "/out/a.txt" [] ["b.txt"] 2
    (by decide) (by decide) (by decide) (fun q => rfl) rfl (by decide)
    (by decide) (by decide) rfl hothers (by unfold KeysND; decide) hk2
    (Or.inr (by decide)) (by decide) (by decide) (by decide)
  have h2 := blacklist_expiry_removal cfgBlk [] chkFail wBlk [("/in/a.txt", 1)]
    "/in/a.txt" "a.txt" "/out/a.txt" [] ["b.txt"] 1
    (by decide) (by decide) (by decide) (fun q => rfl) rfl (by decide)
    (by decide) (by decide) rfl hothers (by unfold KeysND; decide) hk1
    (Or.inr (by decide)) (by decide) (by decide) (by decide)
  refine ⟨⟨(h1.2.2.1 (by decide)).1, (h1.2.2.1 (by decide)).2.1,
    (h1.2.2.1 (by decide)).2.2 rfl⟩,
    ⟨(h2.2.1 (by decide)).1, (h2.2.1 (by decide)).2⟩, ?_⟩
  refine h1.2.2.2 ⟨["/in/b.txt"], []⟩ [] none false rfl ?_
  intro n hn
  have hld : listdir cfgBlk.input_dir ⟨["/in/b.txt"], []⟩ = ["b.txt"] := by decide
  rw [hld] at hn
  simp only [List.mem_singleton] at hn
  subst hn
  decide

/-- **C5**: a file that failed `blacklist_tries - 1` times and then
passes validation is never force-relocated or deleted by the blacklist
sweep, its ledger entry is removed at the very loop body in which it
passes, and it is appended to that cycle's candidate list. -/
theorem blacklist_cleared_on_pass (cfg : Poller) (fail : List String)
    (chk : String → Bool × Bool) (w : World) (bl : List (String × Int))
    (p nm tgt : String) (ns1 ns2 : List String)
    (hmax : cfg.max_files ≤ 0)
    (hnostop : ∀ q, (chk q).2 = false)
    (hchkp : (chk p).1 = true)
    (hsnap : listdir cfg.input_dir w = ns1 ++ nm :: ns2)
    (hnm : joinPath cfg.input_dir nm = p)
    (hdirp : p ∉ w.dirs)
    (hext : extOk cfg nm = true)
    (hothers : ∀ n ∈ ns1 ++ ns2, EntryOk cfg p tgt n)
    (hnd : KeysND bl) (hk : KeysOk cfg p tgt bl)
    (hc : blGet bl p = some (cfg.blacklist_tries - 1))
    (hpw : p ∈ w.files) :
    (∀ st : LState, p ∉ st.w.dirs →
      blGet (listStep cfg fail (some chk) st nm).bl p = none) ∧
    (∃ l, (listFiles cfg fail (some chk) w bl false).res = some l ∧ p ∈ l) ∧
    p ∈ (listFiles cfg fail (some chk) w bl false).w.files ∧
    blGet (listFiles cfg fail (some chk) w bl false).bl p = none := by
  have hPOk0 : blGet bl p = none ∨
      ∃ c, blGet bl p = some c ∧ c ≠ cfg.blacklist_tries :=
    Or.inr ⟨cfg.blacklist_tries - 1, hc, by omega⟩
  have h1 := foldl_other cfg fail chk p tgt hnostop ns1 ⟨w, bl, [], false⟩
    (fun n hn => hothers n (List.mem_append_left _ hn)) hnd hk hPOk0
  have hpass := listStep_pass_p cfg fail chk
    (ns1.foldl (listStep cfg fail (some chk)) ⟨w, bl, [], false⟩) nm p tgt
    hnostop hnm (fun hmem => hdirp (h1.2.2.2.2.1 ▸ hmem)) hext hchkp
    h1.1 h1.2.1
  have h3 := foldl_other cfg fail chk p tgt hnostop ns2 _
    (fun n hn => hothers n (List.mem_append_right _ hn)) hpass.1 hpass.2.1
    (Or.inl hpass.2.2.1)
  have hfoldeq : (ns1 ++ nm :: ns2).foldl (listStep cfg fail (some chk))
      ⟨w, bl, [], false⟩ =
      ns2.foldl (listStep cfg fail (some chk))
        (listStep cfg fail (some chk)
          (ns1.foldl (listStep cfg fail (some chk)) ⟨w, bl, [], false⟩) nm) := by
    rw [List.foldl_append, List.foldl_cons]
  have hout : listFiles cfg fail (some chk) w bl false =
      ⟨some ((ns1 ++ nm :: ns2).foldl (listStep cfg fail (some chk))
          ⟨w, bl, [], false⟩).acc,
        ((ns1 ++ nm :: ns2).foldl (listStep cfg fail (some chk))
          ⟨w, bl, [], false⟩).w,
        ((ns1 ++ nm :: ns2).foldl (listStep cfg fail (some chk))
          ⟨w, bl, [], false⟩).bl,
        ((ns1 ++ nm :: ns2).foldl (listStep cfg fail (some chk))
          ⟨w, bl, [], false⟩).stopped⟩ := by
    unfold listFiles
    rw [if_neg (by simp), hsnap,
      listLoop_eq_foldl cfg fail chk hmax hnostop _ _ rfl]
  refine ⟨?_, ?_, ?_, ?_⟩
  · intro st hdirst
    unfold listStep
    rw [hnm, if_neg hdirst, if_neg (not_not_intro hext)]
    refine blGet_none_filter _ _ _ ?_
    unfold applyCheck
    simp only []
    rw [if_pos hchkp]
    exact blGet_blDel_self _ _
  · refine ⟨((ns1 ++ nm :: ns2).foldl (listStep cfg fail (some chk))
      ⟨w, bl, [], false⟩).acc, by rw [hout], ?_⟩
    rw [hfoldeq]
    exact h3.2.2.2.2.2.2.2.2 p hpass.2.2.2.2.2.1
  · rw [hout]
    simp only []
    rw [hfoldeq]
    exact h3.2.2.2.2.2.1 (hpass.2.2.2.2.2.2 (h1.2.2.2.2.2.1 hpw))
  · rw [hout]
    simp only []
    rw [hfoldeq]
    exact h3.2.2.1.trans hpass.2.2.1

def chkPass : String → Bool × Bool := fun _ => (true, false)

/-- Witness for the pass-after-strikes theorem: `a.txt` at strike count
2 (threshold 3) passes, joins the candidate list, stays in the input
directory and leaves the ledger. -/
theorem blacklist_cleared_on_pass_witness :
    blGet (listStep cfgBlk [] (some chkPass)
      ⟨wBlk, [("/in/a.txt", 2)], [], false⟩ "a.txt").bl "/in/a.txt" = none ∧
    (∃ l, (listFiles cfgBlk [] (some chkPass) wBlk [("/in/a.txt", 2)] false).res =
        some l ∧ "/in/a.txt" ∈ l) ∧
    "/in/a.txt" ∈
      (listFiles cfgBlk [] (some chkPass) wBlk [("/in/a.txt", 2)] false).w.files ∧
    blGet (listFiles cfgBlk [] (some chkPass) wBlk [("/in/a.txt", 2)] false).bl
      "/in/a.txt" = none := by
  have hothers : ∀ n ∈ ([] ++ ["b.txt"] : List String),
      EntryOk cfgBlk "/in/a.txt" "/out/a.txt" n := by
    intro n hn
    simp only [List.nil_append, List.mem_singleton] at hn
    subst hn
    exact ⟨by decide, by decide, by decide⟩
  have hk2 : KeysOk cfgBlk "/in/a.txt" "/out/a.txt" [("/in/a.txt", 2)] := by
    intro k hkm
    simp only [List.map_cons, List.map_nil, List.mem_singleton] at hkm
    subst hkm
    exact ⟨by decide, by decide⟩
  have h := blacklist_cleared_on_pass cfgBlk [] chkPass wBlk [("/in/a.txt", 2)]
    "/in/a.txt" "a.txt" "/out/a.txt" [] ["b.txt"]
    (by decide) (fun q => rfl) rfl (by decide) (by decide) (by decide) rfl
    hothers (by unfold KeysND; decide) hk2 (by decide) (by decide)
  exact ⟨h.1 ⟨wBlk, [("/in/a.txt", 2)], [], false⟩ (by decide), h.2.1, h.2.2.1,
    h.2.2.2⟩

/-- One loop body for an eligible entry (not a directory, extension
accepted, validator passes without stopping) on an empty blacklist:
the entry is appended and nothing else changes. -/
theorem listStep_eligible (cfg : Poller) (fail : List String)
    (chk : String → Bool × Bool) (st : LState) (n : String)
    (hbl : st.bl = []) (hst : st.stopped = false)
    (hdir : joinPath cfg.input_dir n ∉ st.w.dirs)
    (hext : extOk cfg n = true)
    (hchk : chk (joinPath cfg.input_dir n) = (true, false)) :
    listStep cfg fail (some chk) st n =
      ⟨st.w, [], st.acc ++ [joinPath cfg.input_dir n], false⟩ := by
  unfold listStep applyCheck
  rw [if_neg hdir, if_neg (not_not_intro hext)]
  simp only [hchk, hbl, hst]
  rfl

/-- The enumeration loop over all-eligible entries with an empty
blacklist and a positive cap `N`: with `k` slots left and at least `k`
entries ahead, it stops after exactly `k` more entries. -/
theorem listLoop_cap (cfg : Poller) (fail : List String)
    (chk : String → Bool × Bool) (N : Nat) (hN : cfg.max_files = (N : Int)) :
    ∀ (ns : List String) (st : LState) (k : Nat),
      st.bl = [] → st.stopped = false →
      N = st.acc.length + k → 0 < k → k ≤ ns.length →
      (∀ n ∈ ns, joinPath cfg.input_dir n ∉ st.w.dirs ∧ extOk cfg n = true ∧
        chk (joinPath cfg.input_dir n) = (true, false)) →
      listLoop cfg fail (some chk) ns st =
        .done ⟨st.w, [], st.acc ++ (ns.take k).map (joinPath cfg.input_dir), false⟩ := by
  intro ns
  induction ns with
  | nil =>
    intro st k _ _ _ hkpos hkle _
    simp at hkle
    omega
  | cons n ns ih =>
    intro st k hbl hst hNlen hkpos hkle helig
    cases k with
    | zero => omega
    | succ k' =>
      have hstep := listStep_eligible cfg fail chk st n hbl hst
        (helig n (List.mem_cons_self _ _)).1 (helig n (List.mem_cons_self _ _)).2.1
        (helig n (List.mem_cons_self _ _)).2.2
      simp only [listLoop]
      rw [if_neg (by simp [hst]), hstep]
      by_cases hk0 : k' = 0
      · subst hk0
        rw [if_pos ?hcap]
        case hcap =>
          constructor
          · rw [hN]
            simp only [gt_iff_lt]
            exact_mod_cast by omega
          · rw [hN]
            simp only [List.length_append, List.length_singleton]
            exact_mod_cast by omega
        simp [List.take_succ_cons]
      · rw [if_neg ?hncap]
        case hncap =>
          rintro ⟨-, hlen⟩
          rw [hN] at hlen
          simp only [List.length_append, List.length_singleton] at hlen
          have : st.acc.length + 1 = N := by exact_mod_cast hlen
          omega
      
        have hrec := ih ⟨st.w, [], st.acc ++ [joinPath cfg.input_dir n], false⟩ k'
          rfl rfl (by simp only [List.length_append, List.length_singleton]; omega)
          (Nat.pos_of_ne_zero hk0)
          (by simp only [List.length_cons] at hkle; omega)
          (fun n' hn' => helig n' (List.mem_cons_of_mem _ hn'))
        rw [hrec]
        simp [List.take_succ_cons]

/-- **C3**: with `max_files = N > 0` and more than `N` eligible files,
one `list_files` cycle returns exactly the first `N` eligible entries
and leaves the filesystem untouched, so the remaining files are still
candidates for a later cycle. -/
theorem max_files_cap (cfg : Poller) (fail : List String)
    (chk : String → Bool × Bool) (w : World) (N : Nat) (names : List String)
    (hN : cfg.max_files = (N : Int)) (hNpos : 0 < N)
    (hnames : listdir cfg.input_dir w = names)
    (hM : N < names.length)
    (helig : ∀ n ∈ names, joinPath cfg.input_dir n ∉ w.dirs ∧
      extOk cfg n = true ∧ chk (joinPath cfg.input_dir n) = (true, false)) :
    listFiles cfg fail (some chk) w [] false =
      ⟨some ((names.take N).map (joinPath cfg.input_dir)), w, [], false⟩ ∧
    ((names.take N).map (joinPath cfg.input_dir)).length = N := by
  constructor
  · unfold listFiles
    rw [if_neg (by simp), hnames,
      listLoop_cap cfg fail chk N hN names ⟨w, [], [], false⟩ N rfl rfl
        (by simp) hNpos (by omega) helig]
    rfl
  · simp only [List.length_map, List.length_take]
    omega

/-- Witness for the cap theorem: cap 2, three eligible files — the
first two are returned, all three remain on disk. -/
theorem max_files_cap_witness :
    listFiles { cfgBlk with max_files := 2 } [] (some chkPass)
        ⟨["/in/a.txt", "/in/b.txt", "/in/c.txt"], []⟩ [] false =
      ⟨some ["/in/a.txt", "/in/b.txt"],
        ⟨["/in/a.txt", "/in/b.txt", "/in/c.txt"], []⟩, [], false⟩ ∧
    (["/in/a.txt", "/in/b.txt"] : List String).length = 2 := by
  have h := max_files_cap { cfgBlk with max_files := 2 } [] chkPass
    ⟨["/in/a.txt", "/in/b.txt", "/in/c.txt"], []⟩ 2 ["a.txt", "b.txt", "c.txt"]
    rfl (by decide) (by decide) (by decide) (by decide)
  exact ⟨h.1, by decide⟩

end SFP
